import Mathlib

/-!
Verification development for the redstonesim core (src/lib.rs).

The Rust engine is shallowly embedded: u8 fields become Nat (the code only
compares, takes max, copies constants bounded by 255, and subtracts under a
positivity guard or with saturating_sub, so no wrap-around is reachable);
HashMap<Pos, BlockKind> becomes a key-sorted association list (the canonical
representative of the hash map's contents; HashMap iteration order in the
source is unspecified, so per-tick iteration is parametrized by the list of
dirty positions, and the canonical runs keep sets as sorted lists);
the panic in dir_from_to becomes the none case of an Option.
-/

-- -------------------------------------------------
-- Position (struct Pos, src/lib.rs lines 24-29)
-- -------------------------------------------------
structure Pos where
  x : Int
  y : Int
  z : Int
deriving DecidableEq

-- enum Direction (lines 31-40)
inductive Direction where
  | north
  | east
  | south
  | west
  | up
  | down
deriving DecidableEq

-- Direction::offset (lines 43-52)
def Direction.offset : Direction → Int × Int × Int
  | .east => (1, 0, 0)
  | .west => (-1, 0, 0)
  | .up => (0, 1, 0)
  | .down => (0, -1, 0)
  | .south => (0, 0, 1)
  | .north => (0, 0, -1)

-- Direction::opposite (lines 54-63)
def Direction.opposite : Direction → Direction
  | .east => .west
  | .west => .east
  | .up => .down
  | .down => .up
  | .south => .north
  | .north => .south

-- Direction::all (lines 65-74), in the source's order
def Direction.all : List Direction :=
  [.east, .west, .up, .down, .south, .north]

-- the position one step from p in direction d (pos.x + dx, ... inlined in the source)
def shift (p : Pos) (d : Direction) : Pos :=
  ⟨p.x + d.offset.1, p.y + d.offset.2.1, p.z + d.offset.2.2⟩

-- dir_from_to (lines 78-86); the panic on non-adjacent positions is the none case
def dirFromTo (f t : Pos) : Option Direction :=
  Direction.all.find? (fun d => shift f d == t)

-- -------------------------------------------------
-- enum BlockKind (lines 97-136); u8 fields as Nat
-- -------------------------------------------------
inductive BlockKind where
  | lever (isOn : Bool) (facing : Direction)  -- field named on in the source; on is a Lean keyword
  | button ( ticks_remaining : Nat) (facing : Direction)
  | dust (power : Nat)
  | lamp (isOn : Bool)
  | repeater (delay : Nat) ( ticks_remaining : Nat) (powered : Bool) (facing : Direction)
  | comparator (output : Nat) (facing : Direction)
  | torch (lit : Bool) (facing : Direction)
  | piston (extended : Bool) (facing : Direction)
  | hopper (enabled : Bool) (facing : Direction)
deriving DecidableEq

-- Connectable::input_positions for BlockKind (lines 139-163)
def inputPositions : BlockKind → Pos → List Pos
  | .lever _ _, _ => []
  | .button _ _, _ => []
  | .dust _, p => Direction.all.map (shift p)
  | .lamp _, p => Direction.all.map (shift p)
  | .piston _ _, p => Direction.all.map (shift p)
  | .hopper _ _, p => Direction.all.map (shift p)
  | .comparator _ _, p => Direction.all.map (shift p)
  | .repeater _ _ _ facing, p => [shift p facing.opposite]
  | .torch _ facing, p => [shift p facing]

-- Connectable::output_positions for BlockKind (lines 165-196)
def outputPositions : BlockKind → Pos → List Pos
  | .lever _ facing, p => [shift p facing]
  | .button _ facing, p => [shift p facing]
  | .repeater _ _ _ facing, p => [shift p facing]
  | .comparator _ facing, p => [shift p facing]
  | .torch _ facing, p => (Direction.all.filter (fun d => d ≠ facing)).map (shift p)
  | .dust _, p => Direction.all.map (shift p)
  | .lamp _, _ => []
  | .piston _ _, _ => []
  | .hopper _ _, _ => []

-- -------------------------------------------------
-- World as a position-keyed map (HashMap<Pos, BlockKind> in the source),
-- represented canonically as an association list sorted by key.
-- -------------------------------------------------
def posLtB (a b : Pos) : Bool :=
  decide (a.x < b.x ∨ (a.x = b.x ∧ (a.y < b.y ∨ (a.y = b.y ∧ a.z < b.z))))

abbrev WorldMap := List (Pos × BlockKind)

-- HashMap::get
def lookupW (m : WorldMap) (p : Pos) : Option BlockKind :=
  (m.find? (fun e => e.1 == p)).map (fun e => e.2)

-- HashMap::insert: replaces the value at an existing key, otherwise adds the
-- key; the sorted position keeps the representation canonical.
def insertW (m : WorldMap) (p : Pos) (k : BlockKind) : WorldMap :=
  match m with
  | [] => [(p, k)]
  | (q, v) :: rest =>
    if p = q then (p, k) :: rest
    else if posLtB p q then (p, k) :: (q, v) :: rest
    else (q, v) :: insertW rest p k

-- HashSet<Pos>, canonically a sorted duplicate-free list
def insertPos (s : List Pos) (p : Pos) : List Pos :=
  match s with
  | [] => [p]
  | q :: rest =>
    if p = q then q :: rest
    else if posLtB p q then p :: q :: rest
    else q :: insertPos rest p

-- struct PlacedBlock (lines 202-208)
structure PlacedBlock where
  pos : Pos
  kind : BlockKind
deriving DecidableEq

-- struct World (lines 210-213)
structure World where
  blocks : List PlacedBlock
deriving DecidableEq

-- World::into_map (lines 215-219): collect into a HashMap, later entries
-- at the same position overwrite earlier ones
def intoMap (blocks : List PlacedBlock) : WorldMap :=
  blocks.foldl (fun m b => insertW m b.pos b.kind) []

-- struct SimRequest (lines 224-230)
structure SimRequest where
  ticks : Nat
  world : World
  early_exit : Bool
deriving DecidableEq

-- struct BlockChange (lines 235-241)
structure BlockChange where
  pos : Pos
  kind : BlockKind
deriving DecidableEq

-- struct TickDiff (lines 243-247)
structure TickDiff where
  tick : Nat
  changes : List BlockChange
deriving DecidableEq

-- enum Termination (lines 249-254)
inductive Termination where
  | stable
  | maxTicksReached
deriving DecidableEq

-- struct SimResponse (lines 256-260)
structure SimResponse where
  diffs : List TickDiff
  terminated : Termination
deriving DecidableEq

-- -------------------------------------------------
-- simulate (lines 267-492)
-- -------------------------------------------------

-- output_towards (lines 272-283)
def outputTowards : BlockKind → Direction → Nat
  | .lever isOn facing, dir => if isOn ∧ facing = dir then 15 else 0
  | .button tr facing, dir => if tr > 0 ∧ facing = dir then 15 else 0
  | .repeater _ _ powered facing, dir => if powered ∧ facing = dir then 15 else 0
  | .comparator out facing, dir => if out > 0 ∧ facing = dir then out else 0
  | .torch lit facing, dir => if lit ∧ dir ≠ facing then 15 else 0
  | .dust power, _ => power
  | .lamp _, _ => 0
  | .piston _ _, _ => 0
  | .hopper _ _, _ => 0

-- the repeater's input read (lines 318-324): power offered by the single back
-- neighbor in the snapshot
def repInput (snapshot : WorldMap) (pos : Pos) (facing : Direction) : Nat :=
  match lookupW snapshot (shift pos facing.opposite) with
  | some nb => outputTowards nb facing
  | none => 0

-- the powered check shared by lamp / piston / hopper (lines 392-400 etc.):
-- does any input position offer power toward this cell in the snapshot
def anyInputPowered (snapshot : WorldMap) (b : BlockKind) (pos : Pos) : Bool :=
  (inputPositions b pos).any (fun n =>
    match lookupW snapshot n with
    | some nb =>
      match dirFromTo n pos with
      | some dir => decide (outputTowards nb dir > 0)
      | none => false
    | none => false)

-- the comparator's new output (lines 359-365)
def maxInputTowards (snapshot : WorldMap) (b : BlockKind) (pos : Pos) : Nat :=
  (inputPositions b pos).foldl (fun acc n =>
    match lookupW snapshot n with
    | some nb =>
      match dirFromTo n pos with
      | some dir => max acc (outputTowards nb dir)
      | none => acc
    | none => acc) 0

-- the dust's new power (lines 373-384): a dust neighbor contributes its own
-- power saturating-minus one, anything else contributes output_towards
def dustNewPower (snapshot : WorldMap) (b : BlockKind) (pos : Pos) : Nat :=
  (inputPositions b pos).foldl (fun acc n =>
    match lookupW snapshot n with
    | some nb =>
      match dirFromTo n pos with
      | some dir =>
        max acc (match nb with
          | .dust p2 => p2 - 1
          | _ => outputTowards nb dir)
      | none => acc
    | none => acc) 0

-- the torch's powered check (lines 408-415): only the neighbor in front
def torchInputPowered (snapshot : WorldMap) (pos : Pos) (facing : Direction) : Bool :=
  match lookupW snapshot (shift pos facing) with
  | some nb => decide (outputTowards nb facing.opposite > 0)
  | none => false

-- the repeater's sequential state update (lines 326-344), as a function of the
-- input power read at lines 318-324
def repStep (input delay tr : Nat) (powered : Bool) : Nat × Bool :=
  let s1 : Nat × Bool :=
    if input > 0 then
      (if powered = false ∧ tr = 0 then (delay, powered) else (tr, powered))
    else (0, false)
  if s1.1 > 0 then (s1.1 - 1, if s1.1 - 1 = 0 ∧ input > 0 then true else s1.2) else s1

-- the per-variant update applied to one dirty block (the match at lines
-- 302-458); returns (new block, changed, mark_out, self kept dirty)
def updateBlock (snapshot : WorldMap) (pos : Pos) (b : BlockKind) :
    BlockKind × Bool × Bool × Bool :=
  match b with
  | .button tr facing =>
    -- lines 303-316
    if tr > 0 then
      (.button (tr - 1) facing, true, decide ((15 : Nat) ≠ (if tr - 1 > 0 then 15 else 0)),
        decide (tr - 1 > 0))
    else (.button tr facing, false, false, false)
  | .repeater delay tr powered facing =>
    -- lines 317-357
    let s2 := repStep (repInput snapshot pos facing) delay tr powered
    (.repeater delay s2.1 s2.2 facing,
      decide ((if powered then (15 : Nat) else 0) ≠ (if s2.2 then 15 else 0) ∨ s2.1 ≠ 0),
      decide ((if powered then (15 : Nat) else 0) ≠ (if s2.2 then 15 else 0)),
      decide (s2.1 > 0))
  | .comparator out facing =>
    -- lines 358-371
    if out = maxInputTowards snapshot (.comparator out facing) pos then
      (.comparator out facing, false, false, false)
    else (.comparator (maxInputTowards snapshot (.comparator out facing) pos) facing,
      true, true, false)
  | .dust pw =>
    -- lines 372-390
    if pw = dustNewPower snapshot (.dust pw) pos then (.dust pw, false, false, false)
    else (.dust (dustNewPower snapshot (.dust pw) pos), true, true, false)
  | .lamp isOn =>
    -- lines 391-406
    if isOn = anyInputPowered snapshot (.lamp isOn) pos then (.lamp isOn, false, false, false)
    else (.lamp (anyInputPowered snapshot (.lamp isOn) pos), true, false, false)
  | .torch lit facing =>
    -- lines 407-422
    if lit = !torchInputPowered snapshot pos facing then (.torch lit facing, false, false, false)
    else (.torch (!torchInputPowered snapshot pos facing) facing, true, true, false)
  | .piston ext facing =>
    -- lines 423-439
    if ext = anyInputPowered snapshot (.piston ext facing) pos then
      (.piston ext facing, false, false, false)
    else (.piston (anyInputPowered snapshot (.piston ext facing) pos) facing, true, true, false)
  | .hopper en facing =>
    -- lines 440-456
    if en = !anyInputPowered snapshot (.hopper en facing) pos then
      (.hopper en facing, false, false, false)
    else (.hopper (!anyInputPowered snapshot (.hopper en facing) pos) facing, true, false, false)
  | .lever isOn facing =>
    -- the catch-all arm at line 457
    (.lever isOn facing, false, false, false)

-- the per-tick accumulator: live world, this tick's change list, next dirty set
structure TickState where
  world : WorldMap
  changes : List BlockChange
  nextDirty : List Pos
deriving DecidableEq

-- the body of the loop over the dirty set (lines 298-467); reads the block
-- from the live world, neighbor reads go to the snapshot
def processPos (snapshot : WorldMap) (st : TickState) (pos : Pos) : TickState :=
  match lookupW st.world pos with
  | none => st
  | some b =>
    let r := updateBlock snapshot pos b
    let world' := insertW st.world pos r.1
    let nd1 := if r.2.2.2 then insertPos st.nextDirty pos else st.nextDirty
    let changes' := if r.2.1 then st.changes ++ [⟨pos, r.1⟩] else st.changes
    -- mark_outputs (lines 285-289, called at line 464)
    let nd2 := if r.2.2.1 then (outputPositions r.1 pos).foldl insertPos nd1 else nd1
    ⟨world', changes', nd2⟩

-- one tick: snapshot the world, process every dirty position
def runTick (w : WorldMap) (dirty : List Pos) : TickState :=
  dirty.foldl (processPos w) ⟨w, [], []⟩

-- the early-exit timer scan (lines 472-476)
def timersActive (w : WorldMap) : Bool :=
  w.any (fun e =>
    match e.2 with
    | .button tr _ => decide (tr > 0)
    | .repeater _ tr _ _ => decide (tr > 0)
    | _ => false)

-- one record per executed tick, kept so that per-tick properties can be
-- stated; before/after are the worlds at the tick's start and end
structure TickRecord where
  tick : Nat
  before : WorldMap
  after : WorldMap
  changes : List BlockChange
deriving DecidableEq

structure SimOutcome where
  diffs : List TickDiff
  terminated : Termination
  world : WorldMap
  trace : List TickRecord
deriving DecidableEq

-- the for-loop of simulate (lines 293-486); fuel counts the remaining ticks;
-- diffs accumulates exactly as the source pushes TickDiffs, the trace and the
-- returned world are instrumentation that the source keeps in local state
def simLoop (fuel tick : Nat) (ee : Bool) (w : WorldMap) (dirty : List Pos)
    (diffs : List TickDiff) (trace : List TickRecord) : SimOutcome :=
  match fuel with
  | 0 => ⟨diffs, .maxTicksReached, w, trace⟩
  | fuel' + 1 =>
    let st := runTick w dirty
    let r : TickRecord := ⟨tick, w, st.world, st.changes⟩
    if st.changes.isEmpty then
      -- lines 471-483
      if ee && !timersActive st.world then ⟨diffs, .stable, st.world, trace ++ [r]⟩
      else simLoop fuel' (tick + 1) ee st.world st.nextDirty diffs (trace ++ [r])
    else
      -- lines 469-470
      simLoop fuel' (tick + 1) ee st.world st.nextDirty
        (diffs ++ [⟨tick, st.changes⟩]) (trace ++ [r])

-- simulate, with the final world and the trace exposed
def simulateFull (req : SimRequest) : SimOutcome :=
  let w := intoMap req.world.blocks
  -- line 291: the dirty set starts as every key of the world
  simLoop req.ticks 1 req.early_exit w (w.map (fun e => e.1)) [] []

-- pub fn simulate (lines 267-492)
def simulate (req : SimRequest) : SimResponse :=
  ⟨(simulateFull req).diffs, (simulateFull req).terminated⟩

-- -------------------------------------------------
-- Basic lemmas about positions, directions and the map representation
-- -------------------------------------------------

theorem posEq_iff (a b : Pos) : a = b ↔ a.x = b.x ∧ a.y = b.y ∧ a.z = b.z := by
  constructor
  · rintro rfl; exact ⟨rfl, rfl, rfl⟩
  · rintro ⟨h1, h2, h3⟩; cases a; cases b; simp_all

theorem posLtB_iff (a b : Pos) :
    posLtB a b = true ↔
      a.x < b.x ∨ (a.x = b.x ∧ (a.y < b.y ∨ (a.y = b.y ∧ a.z < b.z))) := by
  simp [posLtB]

theorem posLtB_irrefl (a : Pos) : posLtB a a = false := by
  simp [posLtB]

theorem posLtB_asymm {a b : Pos} (h : posLtB a b = true) : posLtB b a = false := by
  rw [posLtB_iff] at h
  simp only [posLtB, decide_eq_false_iff_not]
  omega

theorem posLtB_trans {a b c : Pos} (h1 : posLtB a b = true) (h2 : posLtB b c = true) :
    posLtB a c = true := by
  rw [posLtB_iff] at h1 h2 ⊢
  omega

theorem posLtB_of_ne {a b : Pos} (h : a ≠ b) :
    posLtB a b = true ∨ posLtB b a = true := by
  have h' : ¬(a.x = b.x ∧ a.y = b.y ∧ a.z = b.z) := fun hc => h ((posEq_iff a b).mpr hc)
  rw [posLtB_iff, posLtB_iff]
  omega

theorem shift_shift_opposite (p : Pos) (d : Direction) :
    shift (shift p d) d.opposite = p := by
  cases d <;> simp [shift, Direction.offset, Direction.opposite, posEq_iff]

theorem shift_inj_right {p : Pos} {d e : Direction} (h : shift p d = shift p e) : d = e := by
  cases d <;> cases e <;> simp_all [shift, Direction.offset, posEq_iff]

theorem mem_direction_all (d : Direction) : d ∈ Direction.all := by
  cases d <;> simp [Direction.all]

theorem find?_unique {α : Type} {l : List α} {p : α → Bool} {x : α}
    (hmem : x ∈ l) (hx : p x = true) (huniq : ∀ y ∈ l, p y = true → y = x) :
    l.find? p = some x := by
  induction l with
  | nil => cases hmem
  | cons a rest ih =>
    by_cases ha : p a = true
    · have : a = x := huniq a (List.mem_cons_self a rest) ha
      subst this
      simp [List.find?_cons_of_pos, ha]
    · have hne : a ≠ x := fun he => ha (he ▸ hx)
      have hmem' : x ∈ rest := by
        rcases List.mem_cons.mp hmem with h | h
        · exact absurd h.symm hne
        · exact h
      rw [List.find?_cons_of_neg _ (by simpa using ha)]
      exact ih hmem' (fun y hy hpy => huniq y (List.mem_cons_of_mem _ hy) hpy)

theorem dirFromTo_of_shift (f : Pos) (d : Direction) :
    dirFromTo f (shift f d) = some d := by
  apply find?_unique (mem_direction_all d)
  · simp
  · intro e _ he
    exact shift_inj_right (by simpa using he)

theorem dirFromTo_shift (p : Pos) (d : Direction) :
    dirFromTo (shift p d) p = some d.opposite := by
  have h := dirFromTo_of_shift (shift p d) d.opposite
  rwa [shift_shift_opposite] at h

theorem dirFromTo_some {f t : Pos} {d : Direction} (h : dirFromTo f t = some d) :
    shift f d = t := by
  have := List.find?_some h
  simpa using this

theorem dirFromTo_isSome_of_adj {f t : Pos} (h : ∃ d, shift f d = t) :
    (dirFromTo f t).isSome = true := by
  obtain ⟨d, hd⟩ := h
  rw [← hd, dirFromTo_of_shift]
  rfl

theorem dirFromTo_none {f t : Pos} (h : dirFromTo f t = none) :
    ∀ d, shift f d ≠ t := by
  intro d hd
  have := List.find?_eq_none.mp h d (mem_direction_all d)
  simp [hd] at this

theorem inputPositions_shift {b : BlockKind} {p n : Pos} (h : n ∈ inputPositions b p) :
    ∃ d, n = shift p d := by
  cases b <;> simp [inputPositions] at h <;> first
    | (obtain ⟨d, _, hd⟩ := h; exact ⟨d, hd.symm⟩)
    | exact ⟨_, h⟩

-- lookup / insert lemmas

theorem lookupW_nil (p : Pos) : lookupW [] p = none := rfl

theorem lookupW_cons (q : Pos) (v : BlockKind) (m : WorldMap) (p : Pos) :
    lookupW ((q, v) :: m) p = if q = p then some v else lookupW m p := by
  by_cases h : q = p
  · simp [lookupW, List.find?_cons_of_pos, h]
  · rw [if_neg h]
    unfold lookupW
    rw [List.find?_cons_of_neg _ (by simpa using h)]

theorem lookupW_insertW (m : WorldMap) (p : Pos) (k : BlockKind) (q : Pos) :
    lookupW (insertW m p k) q = if q = p then some k else lookupW m q := by
  induction m with
  | nil =>
    by_cases h : q = p
    · subst h; simp [insertW, lookupW_cons]
    · simp [insertW, lookupW_cons, Ne.symm h, h, lookupW_nil]
  | cons e rest ih =>
    obtain ⟨a, v⟩ := e
    rw [insertW]
    by_cases h1 : p = a
    · subst h1
      by_cases h2 : q = p
      · subst h2; simp [lookupW_cons]
      · simp [lookupW_cons, Ne.symm h2, h2]
    · rw [if_neg h1]
      by_cases hlt : posLtB p a = true
      · rw [if_pos hlt]
        by_cases h2 : q = p
        · subst h2; simp [lookupW_cons]
        · rw [lookupW_cons, if_neg (Ne.symm h2), if_neg h2]
      · rw [if_neg hlt, lookupW_cons, ih, lookupW_cons]
        by_cases h3 : a = q <;> by_cases h4 : q = p <;> simp_all

theorem lookupW_mem {m : WorldMap} {p : Pos} {b : BlockKind} (h : lookupW m p = some b) :
    (p, b) ∈ m := by
  unfold lookupW at h
  cases hf : m.find? (fun e => e.1 == p) with
  | none => rw [hf] at h; cases h
  | some e =>
    rw [hf] at h
    have he := List.find?_some hf
    have hm := List.mem_of_find?_eq_some hf
    obtain ⟨a, v⟩ := e
    simp at he h
    subst he; subst h
    exact hm

theorem lookupW_eq_none_iff {m : WorldMap} {p : Pos} :
    lookupW m p = none ↔ p ∉ m.map (fun e => e.1) := by
  have hfind : lookupW m p = none ↔ m.find? (fun e => e.1 == p) = none := by
    unfold lookupW
    cases m.find? (fun e => e.1 == p) <;> simp
  rw [hfind, List.find?_eq_none]
  constructor
  · intro h hmem
    obtain ⟨e, hem, he⟩ := List.mem_map.mp hmem
    have := h e hem
    simp [he] at this
  · intro h e hem
    simp only [beq_iff_eq]
    intro he
    exact h (List.mem_map.mpr ⟨e, hem, he⟩)

theorem mem_insertPos {s : List Pos} {p q : Pos} :
    q ∈ insertPos s p ↔ q = p ∨ q ∈ s := by
  induction s with
  | nil => simp [insertPos]
  | cons a rest ih =>
    by_cases h1 : p = a
    · subst h1
      have hs : insertPos (p :: rest) p = p :: rest := by
        rw [insertPos, if_pos rfl]
      rw [hs]
      simp only [List.mem_cons]
      tauto
    · rw [insertPos, if_neg h1]
      by_cases h2 : posLtB p a = true
      · rw [if_pos h2]
        simp only [List.mem_cons]
      · rw [if_neg h2]
        simp only [List.mem_cons, ih]
        tauto

theorem mem_foldl_insertPos {l : List Pos} {s : List Pos} {q : Pos} (h : q ∈ s) :
    q ∈ l.foldl insertPos s := by
  induction l generalizing s with
  | nil => exact h
  | cons a rest ih => exact ih (mem_insertPos.mpr (Or.inr h))

-- -------------------------------------------------
-- C7: zero tick budget
-- -------------------------------------------------

/-- C7: for every SimRequest with ticks == 0, simulate returns an empty diffs
list and MaxTicksReached; being a total function of the decoded request, it
always yields a response. -/
theorem C7_zero_ticks (req : SimRequest) (h : req.ticks = 0) :
    simulate req = ⟨[], .maxTicksReached⟩ := by
  simp [simulate, simulateFull, h, simLoop]

/-- C7 witness: the empty request with a zero tick budget. -/
theorem C7_zero_ticks_witness :
    simulate ⟨0, ⟨[]⟩, true⟩ = ⟨[], .maxTicksReached⟩ :=
  C7_zero_ticks ⟨0, ⟨[]⟩, true⟩ rfl

-- -------------------------------------------------
-- C8: dir_from_to contract and its use inside simulate
-- -------------------------------------------------

/-- C8: dir_from_to returns the direction d with from + offset d == to whenever
the two positions are unit-adjacent, and hits its panic branch (none) exactly
otherwise; every neighbor position handed to it during simulate comes from
input_positions, and those are always unit-adjacent to the queried cell, so the
panic branch is unreachable. -/
theorem C8_dir_from_to :
    (∀ f t d, dirFromTo f t = some d → shift f d = t) ∧
    (∀ f t, (∃ d, shift f d = t) → (dirFromTo f t).isSome = true) ∧
    (∀ f t, dirFromTo f t = none → ∀ d, shift f d ≠ t) ∧
    (∀ b p n, n ∈ inputPositions b p → (dirFromTo n p).isSome = true) := by
  refine ⟨fun f t d h => dirFromTo_some h,
          fun f t h => dirFromTo_isSome_of_adj h,
          fun f t h => dirFromTo_none h,
          fun b p n h => ?_⟩
  obtain ⟨d, hd⟩ := inputPositions_shift h
  subst hd
  apply dirFromTo_isSome_of_adj
  exact ⟨d.opposite, shift_shift_opposite p d⟩

/-- C8 witness: a dust cell's first input position is unit-adjacent and
dir_from_to succeeds on it. -/
theorem C8_dir_from_to_witness :
    ((⟨1, 0, 0⟩ : Pos) ∈ inputPositions (.dust 0) ⟨0, 0, 0⟩) ∧
    (dirFromTo ⟨1, 0, 0⟩ ⟨0, 0, 0⟩).isSome = true :=
  ⟨by decide, C8_dir_from_to.2.2.2 (.dust 0) ⟨0, 0, 0⟩ ⟨1, 0, 0⟩ (by decide)⟩

-- -------------------------------------------------
-- C1: the per-tick change order depends on the dirty-set iteration order
-- -------------------------------------------------

-- two independent lever-to-dust circuits; at tick 1 both dust cells change
def c1World : List PlacedBlock :=
  [⟨⟨0, 0, 0⟩, .lever true .east⟩, ⟨⟨1, 0, 0⟩, .dust 0⟩,
   ⟨⟨10, 0, 0⟩, .lever true .east⟩, ⟨⟨11, 0, 0⟩, .dust 0⟩]

def c1Map : WorldMap := intoMap c1World

-- one enumeration of the initial dirty set (lines 291, 298: the key set of the
-- world, iterated in whatever order the HashSet yields)
def c1Order : List Pos := c1Map.map (fun e => e.1)

/-- C1: two enumerations of the same dirty set leave the post-tick world
identical but produce the tick's change list in different orders, so the
response is not a function of the request alone: it depends on the HashSet
iteration order, which the Rust standard library randomizes per run. -/
theorem C1_order_dependence :
    (runTick c1Map c1Order.reverse).changes = ((runTick c1Map c1Order).changes).reverse ∧
    (runTick c1Map c1Order).changes ≠ (runTick c1Map c1Order.reverse).changes ∧
    (runTick c1Map c1Order).world = (runTick c1Map c1Order.reverse).world := by
  refine ⟨by decide, by decide, by decide⟩

-- -------------------------------------------------
-- C4: the repeater's per-tick update
-- -------------------------------------------------

-- Written from the spec's words for comparison with the code: start
-- countdown = delay when input>0 and not powered and no countdown running;
-- snap off when input==0; decrement a running countdown and latch powered
-- when it reaches 0 with input still >0.
def repeaterSpecStep (input delay tr : Nat) (powered : Bool) : Nat × Bool :=
  let a : Nat × Bool :=
    if input > 0 ∧ powered = false ∧ tr = 0 then (delay, powered)
    else if input = 0 then (0, false)
    else (tr, powered)
  if a.1 > 0 then (a.1 - 1, if a.1 - 1 = 0 ∧ input > 0 then true else a.2) else a

/-- C4: the per-tick Repeater update reads its input from the snapshot's single
back neighbor and transforms (ticks_remaining, powered) exactly as the spec
describes; the repeater's position is put into the next dirty set whenever its
countdown is still running after the update. -/
theorem C4_repeater_step (snapshot : WorldMap) (pos : Pos) (delay tr : Nat)
    (powered : Bool) (facing : Direction) :
    ((updateBlock snapshot pos (.repeater delay tr powered facing)).1 =
      .repeater delay (repeaterSpecStep (repInput snapshot pos facing) delay tr powered).1
        (repeaterSpecStep (repInput snapshot pos facing) delay tr powered).2 facing) ∧
    ((updateBlock snapshot pos (.repeater delay tr powered facing)).2.2.2 =
      decide ((repeaterSpecStep (repInput snapshot pos facing) delay tr powered).1 > 0)) ∧
    (∀ st : TickState, lookupW st.world pos = some (.repeater delay tr powered facing) →
      (repeaterSpecStep (repInput snapshot pos facing) delay tr powered).1 > 0 →
      pos ∈ (processPos snapshot st pos).nextDirty) := by
  have hrs : ∀ (i d t : Nat) (pw : Bool), repStep i d t pw = repeaterSpecStep i d t pw := by
    intro i d t pw
    unfold repStep repeaterSpecStep
    by_cases hi : i > 0
    · have hi0 : ¬(i = 0) := by omega
      by_cases hp : pw = false ∧ t = 0 <;> simp [hi, hp, hi0]
    · have hi0 : i = 0 := by omega
      simp [hi, hi0]
  have h1 : (updateBlock snapshot pos (.repeater delay tr powered facing)).1 =
      .repeater delay (repeaterSpecStep (repInput snapshot pos facing) delay tr powered).1
        (repeaterSpecStep (repInput snapshot pos facing) delay tr powered).2 facing := by
    simp only [updateBlock, hrs]
  have h2 : (updateBlock snapshot pos (.repeater delay tr powered facing)).2.2.2 =
      decide ((repeaterSpecStep (repInput snapshot pos facing) delay tr powered).1 > 0) := by
    simp only [updateBlock, hrs]
  refine ⟨h1, h2, fun st hlook hpos => ?_⟩
  have hsd : (updateBlock snapshot pos (.repeater delay tr powered facing)).2.2.2 = true := by
    rw [h2]; simpa using hpos
  cases hmo : (updateBlock snapshot pos (.repeater delay tr powered facing)).2.2.1 with
  | false =>
    simp [processPos, hlook, hsd, hmo]
    exact mem_insertPos.mpr (Or.inl rfl)
  | true =>
    simp [processPos, hlook, hsd, hmo]
    exact mem_foldl_insertPos (mem_insertPos.mpr (Or.inl rfl))

/-- C4 witness: a repeater with delay 2 behind a lever starts its countdown and
stays in the dirty set. -/
theorem C4_repeater_step_witness :
    ((updateBlock (intoMap [⟨⟨0, 0, 0⟩, .lever true .east⟩]) ⟨1, 0, 0⟩
        (.repeater 2 0 false .east)).1 = .repeater 2 1 false .east) ∧
    (lookupW (intoMap [⟨⟨1, 0, 0⟩, .repeater 2 0 false .east⟩]) ⟨1, 0, 0⟩ =
      some (.repeater 2 0 false .east)) ∧
    (⟨1, 0, 0⟩ : Pos) ∈ (processPos (intoMap [⟨⟨0, 0, 0⟩, .lever true .east⟩])
        ⟨intoMap [⟨⟨1, 0, 0⟩, .repeater 2 0 false .east⟩], [], []⟩ ⟨1, 0, 0⟩).nextDirty := by
  refine ⟨?_, by decide, ?_⟩
  · have h := (C4_repeater_step (intoMap [⟨⟨0, 0, 0⟩, .lever true .east⟩]) ⟨1, 0, 0⟩
      2 0 false .east).1
    rw [h]
    decide
  · exact (C4_repeater_step (intoMap [⟨⟨0, 0, 0⟩, .lever true .east⟩]) ⟨1, 0, 0⟩
      2 0 false .east).2.2 ⟨intoMap [⟨⟨1, 0, 0⟩, .repeater 2 0 false .east⟩], [], []⟩
      (by decide) (by decide)

-- -------------------------------------------------
-- C10: duplicate positions in the request's block list
-- -------------------------------------------------

theorem insertW_insertW_same (m : WorldMap) (p : Pos) (k k2 : BlockKind) :
    insertW (insertW m p k) p k2 = insertW m p k2 := by
  induction m with
  | nil => simp [insertW]
  | cons e rest ih =>
    obtain ⟨a, v⟩ := e
    by_cases h1 : p = a
    · subst h1
      rw [insertW, if_pos rfl, insertW, if_pos rfl, insertW, if_pos rfl]
    · rw [insertW, if_neg h1]
      by_cases h2 : posLtB p a = true
      · rw [if_pos h2, insertW, if_pos rfl, insertW, if_neg h1, if_pos h2]
      · rw [if_neg h2, insertW, if_neg h1, if_neg h2, insertW, if_neg h1, if_neg h2, ih]

-- well-formedness of the canonical map representation: entries strictly
-- sorted by key
def wfW (m : WorldMap) : Prop :=
  m.Pairwise (fun e1 e2 => posLtB e1.1 e2.1 = true)

theorem wfW_nil : wfW [] := List.Pairwise.nil

theorem mem_insertW {m : WorldMap} {p : Pos} {k : BlockKind} {e : Pos × BlockKind}
    (h : e ∈ insertW m p k) : e = (p, k) ∨ e ∈ m := by
  induction m with
  | nil => simp [insertW] at h; simp [h]
  | cons a rest ih =>
    obtain ⟨b, v⟩ := a
    rw [insertW] at h
    by_cases h1 : p = b
    · rw [if_pos h1] at h
      rcases List.mem_cons.mp h with h | h
      · left; simp [h]
      · right; exact List.mem_cons.mpr (Or.inr h)
    · rw [if_neg h1] at h
      by_cases h2 : posLtB p b = true
      · rw [if_pos h2] at h
        rcases List.mem_cons.mp h with h | h
        · left; exact h
        · right; exact h
      · rw [if_neg h2] at h
        rcases List.mem_cons.mp h with h | h
        · right; exact List.mem_cons.mpr (Or.inl h)
        · rcases ih h with h | h
          · left; exact h
          · right; exact List.mem_cons.mpr (Or.inr h)

theorem insertW_wf {m : WorldMap} (hw : wfW m) (p : Pos) (k : BlockKind) :
    wfW (insertW m p k) := by
  induction m with
  | nil => simp [insertW, wfW]
  | cons a rest ih =>
    obtain ⟨b, v⟩ := a
    rw [wfW, List.pairwise_cons] at hw
    obtain ⟨hhead, htail⟩ := hw
    rw [insertW]
    by_cases h1 : p = b
    · rw [if_pos h1]
      rw [wfW, List.pairwise_cons]
      exact ⟨fun e he => h1 ▸ hhead e he, htail⟩
    · rw [if_neg h1]
      by_cases h2 : posLtB p b = true
      · rw [if_pos h2]
        rw [wfW, List.pairwise_cons]
        refine ⟨?_, ?_⟩
        · intro e he
          rcases List.mem_cons.mp he with h | h
          · rw [h]; exact h2
          · exact posLtB_trans h2 (hhead e h)
        · exact List.pairwise_cons.mpr ⟨hhead, htail⟩
      · rw [if_neg h2]
        have hbp : posLtB b p = true := by
          rcases posLtB_of_ne h1 with h | h
          · exact absurd h h2
          · exact h
        rw [wfW, List.pairwise_cons]
        refine ⟨?_, ih htail⟩
        intro e he
        rcases mem_insertW he with h | h
        · rw [h]; exact hbp
        · exact hhead e h

theorem wfW_head_not_mem {a : Pos} {v : BlockKind} {rest : WorldMap}
    (hw : wfW ((a, v) :: rest)) : lookupW rest a = none := by
  rw [wfW, List.pairwise_cons] at hw
  rw [lookupW_eq_none_iff]
  intro hmem
  obtain ⟨e, hem, he⟩ := List.mem_map.mp hmem
  have := hw.1 e hem
  rw [he] at this
  simp [posLtB_irrefl] at this

theorem wfW_ext {m1 m2 : WorldMap} (h1 : wfW m1) (h2 : wfW m2)
    (h : ∀ p, lookupW m1 p = lookupW m2 p) : m1 = m2 := by
  induction m1 generalizing m2 with
  | nil =>
    cases m2 with
    | nil => rfl
    | cons e rest =>
      obtain ⟨b, w⟩ := e
      have := h b
      rw [lookupW_nil, lookupW_cons, if_pos rfl] at this
      cases this
  | cons e rest ih =>
    obtain ⟨a, v⟩ := e
    cases m2 with
    | nil =>
      have := h a
      rw [lookupW_nil, lookupW_cons, if_pos rfl] at this
      cases this
    | cons e2 rest2 =>
      obtain ⟨b, w⟩ := e2
      have hab : a = b := by
        by_contra hne
        have hav : lookupW ((b, w) :: rest2) a = some v := by
          rw [← h a, lookupW_cons, if_pos rfl]
        rw [lookupW_cons, if_neg (Ne.symm hne)] at hav
        have hbw : lookupW ((a, v) :: rest) b = some w := by
          rw [h b, lookupW_cons, if_pos rfl]
        rw [lookupW_cons, if_neg hne] at hbw
        -- a sits in rest2's tail, so b < a; b sits in rest's tail, so a < b
        have hmem_a : a ∈ rest2.map (fun e => e.1) :=
          List.mem_map.mpr ⟨(a, v), lookupW_mem hav, rfl⟩
        have hmem_b : b ∈ rest.map (fun e => e.1) :=
          List.mem_map.mpr ⟨(b, w), lookupW_mem hbw, rfl⟩
        rw [wfW, List.pairwise_cons] at h1 h2
        obtain ⟨e1, he1, he1'⟩ := List.mem_map.mp hmem_b
        obtain ⟨e2', he2, he2'⟩ := List.mem_map.mp hmem_a
        have hlt1 := h1.1 e1 he1
        have hlt2 := h2.1 e2' he2
        rw [he1'] at hlt1
        rw [he2'] at hlt2
        have := posLtB_asymm hlt1
        rw [this] at hlt2
        cases hlt2
      subst hab
      have hvw : v = w := by
        have := h a
        rw [lookupW_cons, if_pos rfl, lookupW_cons, if_pos rfl] at this
        exact Option.some.inj this
      subst hvw
      have hrest : ∀ p, lookupW rest p = lookupW rest2 p := by
        intro p
        by_cases hp : a = p
        · subst hp
          rw [wfW_head_not_mem h1, wfW_head_not_mem h2]
        · have := h p
          rw [lookupW_cons, if_neg hp, lookupW_cons, if_neg hp] at this
          exact this
      rw [ih (List.Pairwise.of_cons h1) (List.Pairwise.of_cons h2) hrest]

theorem insertW_comm {m : WorldMap} (hw : wfW m) {p q : Pos} (k k2 : BlockKind)
    (hne : p ≠ q) :
    insertW (insertW m p k) q k2 = insertW (insertW m q k2) p k := by
  apply wfW_ext (insertW_wf (insertW_wf hw p k) q k2) (insertW_wf (insertW_wf hw q k2) p k)
  intro r
  rw [lookupW_insertW, lookupW_insertW, lookupW_insertW, lookupW_insertW]
  by_cases hq : r = q <;> by_cases hp : r = p
  · exact absurd (hp.symm.trans hq) hne
  · simp [hq, hp, Ne.symm hne]
  · simp [hq, hp, hne]
  · simp [hq, hp]

-- discard every entry that a later entry at the same position shadows
def dedupKeepLast : List PlacedBlock → List PlacedBlock
  | [] => []
  | b :: rest =>
    if b.pos ∈ rest.map PlacedBlock.pos then dedupKeepLast rest
    else b :: dedupKeepLast rest

theorem foldl_insertW_shadow (rest : List PlacedBlock) :
    ∀ (m : WorldMap) (p : Pos) (k : BlockKind), wfW m → p ∈ rest.map PlacedBlock.pos →
      rest.foldl (fun m b => insertW m b.pos b.kind) (insertW m p k) =
      rest.foldl (fun m b => insertW m b.pos b.kind) m := by
  induction rest with
  | nil => intro m p k _ h; cases h
  | cons b2 rest' ih =>
    intro m p k hw h
    by_cases he : b2.pos = p
    · simp only [List.foldl_cons]
      rw [he, insertW_insertW_same]
    · have hmem : p ∈ rest'.map PlacedBlock.pos := by
        rcases List.mem_map.mp h with ⟨e, hem, hep⟩
        rcases List.mem_cons.mp hem with h1 | h1
        · exact absurd (h1 ▸ hep) he
        · exact List.mem_map.mpr ⟨e, h1, hep⟩
      simp only [List.foldl_cons]
      rw [insertW_comm hw k b2.kind (fun hpq => he hpq.symm),
        ih _ _ _ (insertW_wf hw b2.pos b2.kind) hmem]

theorem intoMap_dedupKeepLast (blocks : List PlacedBlock) :
    intoMap (dedupKeepLast blocks) = intoMap blocks := by
  suffices h : ∀ m, wfW m →
      (dedupKeepLast blocks).foldl (fun m b => insertW m b.pos b.kind) m =
      blocks.foldl (fun m b => insertW m b.pos b.kind) m from h [] wfW_nil
  induction blocks with
  | nil => intro m _; rfl
  | cons b rest ih =>
    intro m hw
    rw [dedupKeepLast]
    by_cases hmem : b.pos ∈ rest.map PlacedBlock.pos
    · rw [if_pos hmem]
      simp only [List.foldl_cons]
      rw [ih m hw, foldl_insertW_shadow rest m b.pos b.kind hw hmem]
    · rw [if_neg hmem]
      simp only [List.foldl_cons]
      rw [ih (insertW m b.pos b.kind) (insertW_wf hw b.pos b.kind)]

/-- C10: when the request's block list contains several entries at the same
position, into_map keeps only the last one: a shadowed head entry does not
affect the map, dropping all shadowed entries leaves the map unchanged, and
simulate gives the same response on the deduplicated request, with no error
anywhere. -/
theorem C10_duplicate_positions :
    (∀ (b : PlacedBlock) (bs : List PlacedBlock), b.pos ∈ bs.map PlacedBlock.pos →
      intoMap (b :: bs) = intoMap bs) ∧
    (∀ blocks, intoMap (dedupKeepLast blocks) = intoMap blocks) ∧
    (∀ (ticks : Nat) (ee : Bool) (blocks : List PlacedBlock),
      simulate ⟨ticks, ⟨dedupKeepLast blocks⟩, ee⟩ = simulate ⟨ticks, ⟨blocks⟩, ee⟩) := by
  refine ⟨fun b bs h => ?_, intoMap_dedupKeepLast, fun ticks ee blocks => ?_⟩
  · show (b :: bs).foldl (fun m b => insertW m b.pos b.kind) [] = intoMap bs
    simp only [List.foldl_cons]
    exact foldl_insertW_shadow bs [] b.pos b.kind wfW_nil h
  · simp [simulate, simulateFull, intoMap_dedupKeepLast]

/-- C10 witness: with two blocks at the origin, the later lamp wins over the
earlier lever. -/
theorem C10_duplicate_positions_witness :
    intoMap [⟨⟨0, 0, 0⟩, .lever true .east⟩, ⟨⟨0, 0, 0⟩, .lamp false⟩] =
      intoMap [⟨⟨0, 0, 0⟩, .lamp false⟩] :=
  C10_duplicate_positions.1 ⟨⟨0, 0, 0⟩, .lever true .east⟩ [⟨⟨0, 0, 0⟩, .lamp false⟩] (by decide)

-- -------------------------------------------------
-- Observers on block state used by the invariants
-- -------------------------------------------------

-- the variant tag of a block
def tagOf : BlockKind → Nat
  | .lever _ _ => 0
  | .button _ _ => 1
  | .dust _ => 2
  | .lamp _ => 3
  | .repeater _ _ _ _ => 4
  | .comparator _ _ => 5
  | .torch _ _ => 6
  | .piston _ _ => 7
  | .hopper _ _ => 8

-- the facing field, fixed at placement
def facingOf : BlockKind → Option Direction
  | .lever _ f => some f
  | .button _ f => some f
  | .repeater _ _ _ f => some f
  | .comparator _ f => some f
  | .torch _ f => some f
  | .piston _ f => some f
  | .hopper _ f => some f
  | .dust _ => none
  | .lamp _ => none

-- the repeater's configured delay, also never mutated
def delayOf : BlockKind → Option Nat
  | .repeater d _ _ _ => some d
  | _ => none

-- the running countdown of a block (Button / Repeater ticks_remaining)
def timerOf : BlockKind → Nat
  | .button tr _ => tr
  | .repeater _ tr _ _ => tr
  | _ => 0

-- power-valued fields within [0,15] (Dust.power, Comparator.output)
def powerOkB : BlockKind → Bool
  | .dust p => decide (p ≤ 15)
  | .comparator o _ => decide (o ≤ 15)
  | _ => true

def powersOkW (m : WorldMap) : Bool := m.all (fun e => powerOkB e.2)

-- -------------------------------------------------
-- Per-block update lemmas
-- -------------------------------------------------

theorem updateBlock_frame (snapshot : WorldMap) (pos : Pos) (b : BlockKind) :
    tagOf (updateBlock snapshot pos b).1 = tagOf b ∧
    facingOf (updateBlock snapshot pos b).1 = facingOf b ∧
    delayOf (updateBlock snapshot pos b).1 = delayOf b := by
  cases b <;> simp only [updateBlock] <;> (try split_ifs) <;> simp [tagOf, facingOf, delayOf]

theorem repStep_fst_ne {input delay tr : Nat} {powered : Bool}
    (h : (repStep input delay tr powered).1 = tr) (hne : tr ≠ 0) : False := by
  unfold repStep at h
  by_cases hi : input > 0
  · have hp : ¬(powered = false ∧ tr = 0) := fun hc => hne hc.2
    rw [if_pos hi, if_neg hp] at h
    have ht : tr > 0 := Nat.pos_of_ne_zero hne
    rw [if_pos (show ((tr, powered) : Nat × Bool).1 > 0 from ht)] at h
    simp at h
    omega
  · rw [if_neg hi] at h
    simp at h
    exact hne h.symm

theorem updateBlock_changed_ne (snapshot : WorldMap) (pos : Pos) (b : BlockKind)
    (h : (updateBlock snapshot pos b).2.1 = true) : (updateBlock snapshot pos b).1 ≠ b := by
  cases b with
  | lever isOn facing => simp [updateBlock] at h
  | button tr facing =>
    by_cases htr : tr > 0
    · simp only [updateBlock, if_pos htr]
      intro heq
      injection heq with h1 _
      omega
    · simp [updateBlock, htr] at h
  | repeater delay tr powered facing =>
    simp only [updateBlock, decide_eq_true_eq] at h
    intro heq
    simp only [updateBlock, BlockKind.repeater.injEq, true_and, and_true] at heq
    obtain ⟨h1, h2⟩ := heq
    rcases h with hneq | hne
    · exact hneq (by rw [h2])
    · exact repStep_fst_ne h1 (fun h0 => hne (h1.trans h0))
  | comparator out facing =>
    by_cases hc : out = maxInputTowards snapshot (.comparator out facing) pos
    · simp only [updateBlock, if_pos hc] at h
      simp at h
    · simp only [updateBlock, if_neg hc]
      intro heq
      injection heq with h1 _
      exact hc h1.symm
  | dust pw =>
    by_cases hc : pw = dustNewPower snapshot (.dust pw) pos
    · simp only [updateBlock, if_pos hc] at h
      simp at h
    · simp only [updateBlock, if_neg hc]
      intro heq
      injection heq with h1
      exact hc h1.symm
  | lamp isOn =>
    by_cases hc : isOn = anyInputPowered snapshot (.lamp isOn) pos
    · simp only [updateBlock, if_pos hc] at h
      simp at h
    · simp only [updateBlock, if_neg hc]
      intro heq
      injection heq with h1
      exact hc h1.symm
  | torch lit facing =>
    by_cases hc : lit = !torchInputPowered snapshot pos facing
    · simp only [updateBlock, if_pos hc] at h
      simp at h
    · simp only [updateBlock, if_neg hc]
      intro heq
      injection heq with h1 _
      exact hc h1.symm
  | piston ext facing =>
    by_cases hc : ext = anyInputPowered snapshot (.piston ext facing) pos
    · simp only [updateBlock, if_pos hc] at h
      simp at h
    · simp only [updateBlock, if_neg hc]
      intro heq
      injection heq with h1 _
      exact hc h1.symm
  | hopper en facing =>
    by_cases hc : en = !anyInputPowered snapshot (.hopper en facing) pos
    · simp only [updateBlock, if_pos hc] at h
      simp at h
    · simp only [updateBlock, if_neg hc]
      intro heq
      injection heq with h1 _
      exact hc h1.symm

theorem outputTowards_le {nb : BlockKind} (h : powerOkB nb = true) (d : Direction) :
    outputTowards nb d ≤ 15 := by
  cases nb <;> simp [powerOkB] at h <;> simp [outputTowards] <;> (try split_ifs) <;> omega

theorem foldl_le {α : Type} (l : List α) (f : Nat → α → Nat) (B : Nat)
    (hstep : ∀ a n, a ≤ B → f a n ≤ B) : ∀ acc, acc ≤ B → l.foldl f acc ≤ B := by
  induction l with
  | nil => intro acc hacc; exact hacc
  | cons a rest ih => intro acc hacc; exact ih _ (hstep acc a hacc)

theorem lookupW_powerOk {m : WorldMap} (hm : ∀ e ∈ m, powerOkB e.2 = true)
    {p : Pos} {b : BlockKind} (h : lookupW m p = some b) : powerOkB b = true :=
  hm (p, b) (lookupW_mem h)

theorem dustNewPower_le {snapshot : WorldMap} (hsnap : ∀ e ∈ snapshot, powerOkB e.2 = true)
    (b : BlockKind) (pos : Pos) : dustNewPower snapshot b pos ≤ 15 := by
  unfold dustNewPower
  apply foldl_le _ _ 15 _ 0 (by omega)
  intro acc n hacc
  cases hl : lookupW snapshot n with
  | none => exact hacc
  | some nb =>
    cases hd : dirFromTo n pos with
    | none => exact hacc
    | some dir =>
      have hnb := lookupW_powerOk hsnap hl
      cases nb <;> simp only [] <;> rw [Nat.max_le] <;>
        refine ⟨hacc, ?_⟩
      case dust p2 =>
        simp [powerOkB] at hnb
        omega
      all_goals exact outputTowards_le hnb dir

theorem maxInputTowards_le {snapshot : WorldMap} (hsnap : ∀ e ∈ snapshot, powerOkB e.2 = true)
    (b : BlockKind) (pos : Pos) : maxInputTowards snapshot b pos ≤ 15 := by
  unfold maxInputTowards
  apply foldl_le _ _ 15 _ 0 (by omega)
  intro acc n hacc
  cases hl : lookupW snapshot n with
  | none => exact hacc
  | some nb =>
    cases hd : dirFromTo n pos with
    | none => exact hacc
    | some dir =>
      rw [Nat.max_le]
      exact ⟨hacc, outputTowards_le (lookupW_powerOk hsnap hl) dir⟩

theorem updateBlock_powerOk {snapshot : WorldMap} (hsnap : ∀ e ∈ snapshot, powerOkB e.2 = true)
    (pos : Pos) {b : BlockKind} (hb : powerOkB b = true) :
    powerOkB (updateBlock snapshot pos b).1 = true := by
  cases b with
  | dust pw =>
    by_cases hc : pw = dustNewPower snapshot (.dust pw) pos
    · simp only [updateBlock, if_pos hc]
      exact hb
    · simp only [updateBlock, if_neg hc, powerOkB, decide_eq_true_eq]
      exact dustNewPower_le hsnap _ pos
  | comparator out facing =>
    by_cases hc : out = maxInputTowards snapshot (.comparator out facing) pos
    · simp only [updateBlock, if_pos hc]
      exact hb
    · simp only [updateBlock, if_neg hc, powerOkB, decide_eq_true_eq]
      exact maxInputTowards_le hsnap _ pos
  | _ =>
    simp only [updateBlock]
    (try split_ifs) <;> simp [powerOkB]

-- -------------------------------------------------
-- Per-tick (runTick) invariants
-- -------------------------------------------------

theorem foldl_rec {α β : Type} (f : β → α → β) (P : β → Prop) (l : List α)
    (hstep : ∀ s a, P s → P (f s a)) : ∀ st, P st → P (l.foldl f st) := by
  induction l with
  | nil => intro st h; exact h
  | cons a rest ih => intro st h; exact ih _ (hstep st a h)

-- well-formed dirty sets: strictly sorted position lists
def wfP (s : List Pos) : Prop := s.Pairwise (fun a b => posLtB a b = true)

theorem wfP_nil : wfP [] := List.Pairwise.nil

theorem insertPos_wf {s : List Pos} (hw : wfP s) (p : Pos) : wfP (insertPos s p) := by
  induction s with
  | nil => simp [insertPos, wfP]
  | cons a rest ih =>
    rw [wfP, List.pairwise_cons] at hw
    obtain ⟨hhead, htail⟩ := hw
    rw [insertPos]
    by_cases h1 : p = a
    · rw [if_pos h1]
      exact List.pairwise_cons.mpr ⟨hhead, htail⟩
    · rw [if_neg h1]
      by_cases h2 : posLtB p a = true
      · rw [if_pos h2]
        refine List.pairwise_cons.mpr ⟨?_, List.pairwise_cons.mpr ⟨hhead, htail⟩⟩
        intro e he
        rcases List.mem_cons.mp he with h | h
        · rw [h]; exact h2
        · exact posLtB_trans h2 (hhead e h)
      · rw [if_neg h2]
        have hap : posLtB a p = true := by
          rcases posLtB_of_ne h1 with h | h
          · exact absurd h h2
          · exact h
        refine List.pairwise_cons.mpr ⟨?_, ih htail⟩
        intro e he
        rcases mem_insertPos.mp he with h | h
        · rw [h]; exact hap
        · exact hhead e h

theorem wfP_nodup {s : List Pos} (hw : wfP s) : s.Nodup := by
  refine List.Pairwise.imp ?_ hw
  intro a b hab heq
  rw [heq, posLtB_irrefl] at hab
  cases hab

theorem foldl_insertPos_wf {l : List Pos} {s : List Pos} (hw : wfP s) :
    wfP (l.foldl insertPos s) := by
  induction l generalizing s with
  | nil => exact hw
  | cons a rest ih => exact ih (insertPos_wf hw a)

theorem runTick_wf {w : WorldMap} (hw : wfW w) (dirty : List Pos) :
    wfW (runTick w dirty).world := by
  have := foldl_rec (processPos w) (fun st => wfW st.world) dirty ?_ ⟨w, [], []⟩ hw
  · exact this
  · intro s a hs
    cases hl : lookupW s.world a with
    | none => simpa [processPos, hl] using hs
    | some b =>
      simp only [processPos, hl]
      exact insertW_wf hs a _

theorem runTick_nextDirty_wf (w : WorldMap) (dirty : List Pos) :
    wfP (runTick w dirty).nextDirty := by
  have := foldl_rec (processPos w) (fun st => wfP st.nextDirty) dirty ?_ ⟨w, [], []⟩ wfP_nil
  · exact this
  · intro s a hs
    cases hl : lookupW s.world a with
    | none => simpa [processPos, hl] using hs
    | some b =>
      simp only [processPos, hl]
      split_ifs <;>
        first
          | exact foldl_insertPos_wf (insertPos_wf hs a)
          | exact foldl_insertPos_wf hs
          | exact insertPos_wf hs a
          | exact hs

theorem runTick_frame {w : WorldMap} (dirty : List Pos) : ∀ q,
    (lookupW (runTick w dirty).world q).map tagOf = (lookupW w q).map tagOf ∧
    (lookupW (runTick w dirty).world q).map facingOf = (lookupW w q).map facingOf ∧
    (lookupW (runTick w dirty).world q).map delayOf = (lookupW w q).map delayOf := by
  have := foldl_rec (processPos w)
    (fun st => ∀ q,
      (lookupW st.world q).map tagOf = (lookupW w q).map tagOf ∧
      (lookupW st.world q).map facingOf = (lookupW w q).map facingOf ∧
      (lookupW st.world q).map delayOf = (lookupW w q).map delayOf)
    dirty ?_ ⟨w, [], []⟩ (fun q => ⟨rfl, rfl, rfl⟩)
  · exact this
  · intro s a hs q
    cases hl : lookupW s.world a with
    | none => simpa [processPos, hl] using hs q
    | some b =>
      simp only [processPos, hl]
      rw [lookupW_insertW]
      by_cases hq : q = a
      · subst hq
        rw [if_pos rfl]
        have hf := updateBlock_frame w q b
        have hsq := hs q
        rw [hl] at hsq
        rw [← hsq.1, ← hsq.2.1, ← hsq.2.2]
        simp [hf.1, hf.2.1, hf.2.2]
      · rw [if_neg hq]
        exact hs q

theorem runTick_powers {w : WorldMap} (hw : ∀ e ∈ w, powerOkB e.2 = true)
    (dirty : List Pos) :
    (∀ e ∈ (runTick w dirty).world, powerOkB e.2 = true) ∧
    (∀ c ∈ (runTick w dirty).changes, powerOkB c.kind = true) := by
  have := foldl_rec (processPos w)
    (fun st => (∀ e ∈ st.world, powerOkB e.2 = true) ∧
      (∀ c ∈ st.changes, powerOkB c.kind = true))
    dirty ?_ ⟨w, [], []⟩ ⟨hw, fun c hc => absurd hc (List.not_mem_nil c)⟩
  · exact this
  · intro s a hs
    cases hl : lookupW s.world a with
    | none => simpa [processPos, hl] using hs
    | some b =>
      have hok : powerOkB (updateBlock w a b).1 = true :=
        updateBlock_powerOk hw a (hs.1 (a, b) (lookupW_mem hl))
      simp only [processPos, hl]
      constructor
      · intro e he
        rcases mem_insertW he with h | h
        · rw [h]; exact hok
        · exact hs.1 e h
      · intro c hc
        split_ifs at hc with hch
        · rcases List.mem_append.mp hc with h | h
          · exact hs.2 c h
          · rw [List.mem_singleton.mp h]; exact hok
        · exact hs.2 c hc

theorem processPos_changes_core (w : WorldMap) :
    ∀ (rest : List Pos) (st : TickState), rest.Nodup →
    (∀ c ∈ st.changes, lookupW w c.pos ≠ some c.kind ∧
      lookupW st.world c.pos = some c.kind ∧ c.pos ∉ rest) →
    (∀ q ∈ rest, lookupW st.world q = lookupW w q) →
    ∀ c ∈ (rest.foldl (processPos w) st).changes,
      lookupW w c.pos ≠ some c.kind ∧
      lookupW (rest.foldl (processPos w) st).world c.pos = some c.kind := by
  intro rest
  induction rest with
  | nil =>
    intro st _ hch _ c hc
    exact ⟨(hch c hc).1, (hch c hc).2.1⟩
  | cons q rest' ih =>
    intro st hnd hch hun
    have hndr : rest'.Nodup := (List.nodup_cons.mp hnd).2
    have hqnr : q ∉ rest' := (List.nodup_cons.mp hnd).1
    simp only [List.foldl_cons]
    cases hl : lookupW st.world q with
    | none =>
      have hst : processPos w st q = st := by simp [processPos, hl]
      rw [hst]
      apply ih st hndr
      · intro c hc
        obtain ⟨h1, h2, h3⟩ := hch c hc
        exact ⟨h1, h2, fun hmem => h3 (List.mem_cons_of_mem _ hmem)⟩
      · intro q' hq'
        exact hun q' (List.mem_cons_of_mem _ hq')
    | some b =>
      apply ih (processPos w st q) hndr
      · intro c hc
        simp only [processPos, hl] at hc
        by_cases hch2 : (updateBlock w q b).2.1 = true
        · rw [if_pos hch2] at hc
          rcases List.mem_append.mp hc with hmem | hmem
          · obtain ⟨h1, h2, h3⟩ := hch c hmem
            have hcq : c.pos ≠ q := fun he => h3 (he ▸ List.mem_cons_self q rest')
            refine ⟨h1, ?_, fun hmem2 => h3 (List.mem_cons_of_mem _ hmem2)⟩
            simp only [processPos, hl]
            rw [lookupW_insertW, if_neg hcq]
            exact h2
          · rw [List.mem_singleton.mp hmem]
            refine ⟨?_, ?_, hqnr⟩
            · have hwq : lookupW w q = some b := by
                rw [← hun q (List.mem_cons_self q rest')]
                exact hl
              rw [hwq]
              intro hcon
              exact updateBlock_changed_ne w q b hch2 (Option.some.inj hcon).symm
            · simp only [processPos, hl]
              rw [lookupW_insertW, if_pos rfl]
        · rw [if_neg hch2] at hc
          obtain ⟨h1, h2, h3⟩ := hch c hc
          have hcq : c.pos ≠ q := fun he => h3 (he ▸ List.mem_cons_self q rest')
          refine ⟨h1, ?_, fun hmem2 => h3 (List.mem_cons_of_mem _ hmem2)⟩
          simp only [processPos, hl]
          rw [lookupW_insertW, if_neg hcq]
          exact h2
      · intro q' hq'
        have hne : q' ≠ q := fun he => hqnr (he ▸ hq')
        simp only [processPos, hl]
        rw [lookupW_insertW, if_neg hne]
        exact hun q' (List.mem_cons_of_mem _ hq')

theorem runTick_changes {w : WorldMap} {dirty : List Pos} (hnd : dirty.Nodup) :
    ∀ c ∈ (runTick w dirty).changes,
      lookupW w c.pos ≠ some c.kind ∧
      lookupW (runTick w dirty).world c.pos = some c.kind := by
  apply processPos_changes_core w dirty ⟨w, [], []⟩ hnd
  · intro c hc
    exact absurd hc (List.not_mem_nil c)
  · intro q _
    rfl

-- -------------------------------------------------
-- Loop-level invariants
-- -------------------------------------------------

-- the trace is a chain: each record starts at the world the previous one
-- ended with, and the last one ends at the final world
def traceChain : WorldMap → List TickRecord → WorldMap → Prop
  | w0, [], wend => wend = w0
  | w0, r :: rest, wend => r.before = w0 ∧ traceChain r.after rest wend

theorem traceChain_append {w0 w : WorldMap} {trace : List TickRecord}
    (h : traceChain w0 trace w) (r : TickRecord) (hr : r.before = w) :
    traceChain w0 (trace ++ [r]) r.after := by
  induction trace generalizing w0 with
  | nil =>
    rw [traceChain] at h
    exact ⟨hr.trans h, rfl⟩
  | cons r0 rest ih =>
    rw [traceChain] at h
    exact ⟨h.1, ih h.2⟩

-- a trace record really is one runTick step over some duplicate-free dirty set
def tickRecOk (r : TickRecord) : Prop :=
  wfW r.before ∧ ∃ d nd, d.Nodup ∧ runTick r.before d = ⟨r.after, r.changes, nd⟩

theorem simLoop_trace_ok :
    ∀ (fuel tick : Nat) (ee : Bool) (w : WorldMap) (dirty : List Pos)
      (diffs : List TickDiff) (trace : List TickRecord) (w0 : WorldMap),
    wfW w → dirty.Nodup →
    (∀ r ∈ trace, tickRecOk r) →
    traceChain w0 trace w →
    (∀ dd ∈ diffs, ∃ r ∈ trace, r.tick = dd.tick ∧ r.changes = dd.changes) →
    (∀ r ∈ (simLoop fuel tick ee w dirty diffs trace).trace, tickRecOk r) ∧
    traceChain w0 (simLoop fuel tick ee w dirty diffs trace).trace
      (simLoop fuel tick ee w dirty diffs trace).world ∧
    (∀ dd ∈ (simLoop fuel tick ee w dirty diffs trace).diffs,
      ∃ r ∈ (simLoop fuel tick ee w dirty diffs trace).trace,
        r.tick = dd.tick ∧ r.changes = dd.changes) := by
  intro fuel
  induction fuel with
  | zero =>
    intro tick ee w dirty diffs trace w0 _ _ htr hch hdd
    exact ⟨htr, hch, hdd⟩
  | succ fuel' ih =>
    intro tick ee w dirty diffs trace w0 hw hnd htr hch hdd
    have hnewrec : tickRecOk ⟨tick, w, (runTick w dirty).world, (runTick w dirty).changes⟩ :=
      ⟨hw, dirty, (runTick w dirty).nextDirty, hnd, rfl⟩
    have htr' : ∀ r ∈ trace ++ [(⟨tick, w, (runTick w dirty).world,
        (runTick w dirty).changes⟩ : TickRecord)], tickRecOk r := by
      intro r hr
      rcases List.mem_append.mp hr with h | h
      · exact htr r h
      · rw [List.mem_singleton.mp h]; exact hnewrec
    have hch' : traceChain w0 (trace ++ [(⟨tick, w, (runTick w dirty).world,
        (runTick w dirty).changes⟩ : TickRecord)]) (runTick w dirty).world :=
      traceChain_append hch _ rfl
    have hw' : wfW (runTick w dirty).world := runTick_wf hw dirty
    have hnd' : (runTick w dirty).nextDirty.Nodup :=
      wfP_nodup (runTick_nextDirty_wf w dirty)
    simp only [simLoop]
    by_cases hc : (runTick w dirty).changes.isEmpty = true
    · rw [if_pos hc]
      by_cases hee : (ee && !timersActive (runTick w dirty).world) = true
      · rw [if_pos hee]
        refine ⟨htr', hch', ?_⟩
        intro dd hdd'
        obtain ⟨r, hr, h1, h2⟩ := hdd dd hdd'
        exact ⟨r, List.mem_append.mpr (Or.inl hr), h1, h2⟩
      · rw [if_neg hee]
        apply ih _ ee _ _ diffs _ w0 hw' hnd' htr' hch'
        intro dd hdd'
        obtain ⟨r, hr, h1, h2⟩ := hdd dd hdd'
        exact ⟨r, List.mem_append.mpr (Or.inl hr), h1, h2⟩
    · rw [if_neg hc]
      apply ih _ ee _ _ _ _ w0 hw' hnd' htr' hch'
      intro dd hdd'
      rcases List.mem_append.mp hdd' with h | h
      · obtain ⟨r, hr, h1, h2⟩ := hdd dd h
        exact ⟨r, List.mem_append.mpr (Or.inl hr), h1, h2⟩
      · rw [List.mem_singleton.mp h]
        exact ⟨⟨tick, w, (runTick w dirty).world, (runTick w dirty).changes⟩,
          List.mem_append.mpr (Or.inr (List.mem_singleton.mpr rfl)), rfl, rfl⟩

theorem simLoop_stable :
    ∀ (fuel tick : Nat) (ee : Bool) (w : WorldMap) (dirty : List Pos)
      (diffs : List TickDiff) (trace : List TickRecord),
    (simLoop fuel tick ee w dirty diffs trace).terminated = .stable →
    timersActive (simLoop fuel tick ee w dirty diffs trace).world = false ∧
    ∃ r, (simLoop fuel tick ee w dirty diffs trace).trace.getLast? = some r ∧
      r.changes = [] := by
  intro fuel
  induction fuel with
  | zero =>
    intro tick ee w dirty diffs trace h
    simp [simLoop] at h
  | succ fuel' ih =>
    intro tick ee w dirty diffs trace h
    simp only [simLoop] at h ⊢
    by_cases hc : (runTick w dirty).changes.isEmpty = true
    · rw [if_pos hc] at h ⊢
      by_cases hee : (ee && !timersActive (runTick w dirty).world) = true
      · rw [if_pos hee] at h ⊢
        refine ⟨?_, ⟨tick, w, (runTick w dirty).world, (runTick w dirty).changes⟩, ?_, ?_⟩
        · have ht := (Bool.and_eq_true _ _).mp hee
          simpa using ht.2
        · exact List.getLast?_concat _
        · simpa using hc
      · rw [if_neg hee] at h ⊢
        exact ih _ ee _ _ _ _ h
    · rw [if_neg hc] at h ⊢
      exact ih _ ee _ _ _ _ h

theorem simLoop_powers :
    ∀ (fuel tick : Nat) (ee : Bool) (w : WorldMap) (dirty : List Pos)
      (diffs : List TickDiff) (trace : List TickRecord),
    (∀ e ∈ w, powerOkB e.2 = true) →
    (∀ dd ∈ diffs, ∀ c ∈ dd.changes, powerOkB c.kind = true) →
    ∀ dd ∈ (simLoop fuel tick ee w dirty diffs trace).diffs, ∀ c ∈ dd.changes,
      powerOkB c.kind = true := by
  intro fuel
  induction fuel with
  | zero =>
    intro tick ee w dirty diffs trace _ hdd
    exact hdd
  | succ fuel' ih =>
    intro tick ee w dirty diffs trace hw hdd
    have hrt := runTick_powers hw dirty
    simp only [simLoop]
    by_cases hc : (runTick w dirty).changes.isEmpty = true
    · rw [if_pos hc]
      by_cases hee : (ee && !timersActive (runTick w dirty).world) = true
      · rw [if_pos hee]
        exact hdd
      · rw [if_neg hee]
        exact ih _ ee _ _ _ _ hrt.1 hdd
    · rw [if_neg hc]
      apply ih _ ee _ _ _ _ hrt.1
      intro dd hdd'
      rcases List.mem_append.mp hdd' with h | h
      · exact hdd dd h
      · intro c hcc
        rw [List.mem_singleton.mp h] at hcc
        exact hrt.2 c hcc

theorem intoMap_wf (blocks : List PlacedBlock) : wfW (intoMap blocks) := by
  unfold intoMap
  exact foldl_rec (fun m b => insertW m b.pos b.kind) wfW blocks
    (fun s a hs => insertW_wf hs a.pos a.kind) [] wfW_nil

theorem wfW_keys_nodup {m : WorldMap} (hw : wfW m) : (m.map (fun e => e.1)).Nodup := by
  have hp : (m.map (fun e => e.1)).Pairwise (fun a b => posLtB a b = true) :=
    List.pairwise_map.mpr hw
  refine List.Pairwise.imp ?_ hp
  intro a b hab heq
  rw [heq, posLtB_irrefl] at hab
  cases hab

theorem timersActive_false {w : WorldMap} (h : timersActive w = false) :
    ∀ q b, lookupW w q = some b → timerOf b = 0 := by
  intro q b hl
  have hmem := lookupW_mem hl
  unfold timersActive at h
  rw [List.any_eq_false] at h
  have hb := h (q, b) hmem
  cases b <;> simp_all [timerOf]

theorem simulateFull_eq (req : SimRequest) :
    simulateFull req = simLoop req.ticks 1 req.early_exit (intoMap req.world.blocks)
      ((intoMap req.world.blocks).map (fun e => e.1)) [] [] := rfl

-- -------------------------------------------------
-- C5: no false stability
-- -------------------------------------------------

/-- C5: whenever simulate returns Stable, no Button or Repeater in the final
world still has ticks_remaining > 0 (no block has a running timer at all), and
the change list of the tick on which it returned was empty. -/
theorem C5_no_false_stability (req : SimRequest)
    (h : (simulateFull req).terminated = .stable) :
    (∀ q b, lookupW (simulateFull req).world q = some b → timerOf b = 0) ∧
    (∃ r, (simulateFull req).trace.getLast? = some r ∧ r.changes = []) := by
  rw [simulateFull_eq] at h ⊢
  have hs := simLoop_stable req.ticks 1 req.early_exit (intoMap req.world.blocks)
    ((intoMap req.world.blocks).map (fun e => e.1)) [] [] h
  exact ⟨timersActive_false hs.1, hs.2⟩

/-- C5 witness: the lever-to-lamp scenario reaches Stable with an empty final
change list and no timers pending. -/
theorem C5_no_false_stability_witness :
    (simulateFull ⟨5, ⟨[⟨⟨0, 0, 0⟩, .lever true .east⟩, ⟨⟨1, 0, 0⟩, .dust 0⟩,
        ⟨⟨2, 0, 0⟩, .lamp false⟩]⟩, true⟩).terminated = .stable ∧
    (∃ r, (simulateFull ⟨5, ⟨[⟨⟨0, 0, 0⟩, .lever true .east⟩, ⟨⟨1, 0, 0⟩, .dust 0⟩,
        ⟨⟨2, 0, 0⟩, .lamp false⟩]⟩, true⟩).trace.getLast? = some r ∧ r.changes = []) :=
  ⟨by decide, (C5_no_false_stability ⟨5, ⟨[⟨⟨0, 0, 0⟩, .lever true .east⟩,
    ⟨⟨1, 0, 0⟩, .dust 0⟩, ⟨⟨2, 0, 0⟩, .lamp false⟩]⟩, true⟩ (by decide)).2⟩

-- -------------------------------------------------
-- C6: diff minimality
-- -------------------------------------------------

/-- C6: every BlockChange recorded in any TickDiff of the response belongs to a
tick whose starting world (the previous tick's end, or the t=0 map for tick 1,
as witnessed by the trace chain) held a different state at that position, and
the recorded state is the position's state at the tick's end; consequently a
block whose state equals its previous-tick state never appears in that tick's
change list. -/
theorem C6_diff_minimality (req : SimRequest) :
    (∀ dd ∈ (simulate req).diffs, ∃ r ∈ (simulateFull req).trace,
        r.tick = dd.tick ∧ r.changes = dd.changes) ∧
    traceChain (intoMap req.world.blocks) (simulateFull req).trace
      (simulateFull req).world ∧
    (∀ r ∈ (simulateFull req).trace, ∀ c ∈ r.changes,
        lookupW r.before c.pos ≠ some c.kind ∧ lookupW r.after c.pos = some c.kind) ∧
    (∀ r ∈ (simulateFull req).trace, ∀ q, lookupW r.after q = lookupW r.before q →
        ∀ c ∈ r.changes, c.pos ≠ q) := by
  have hm := simLoop_trace_ok req.ticks 1 req.early_exit (intoMap req.world.blocks)
    ((intoMap req.world.blocks).map (fun e => e.1)) [] [] (intoMap req.world.blocks)
    (intoMap_wf req.world.blocks) (wfW_keys_nodup (intoMap_wf req.world.blocks))
    (fun r hr => absurd hr (List.not_mem_nil r)) rfl
    (fun dd hdd => absurd hdd (List.not_mem_nil dd))
  rw [← simulateFull_eq] at hm
  have hchg : ∀ r ∈ (simulateFull req).trace, ∀ c ∈ r.changes,
      lookupW r.before c.pos ≠ some c.kind ∧ lookupW r.after c.pos = some c.kind := by
    intro r hr c hc
    obtain ⟨hwb, d, nd, hnd, hrt⟩ := hm.1 r hr
    have hcs : (runTick r.before d).changes = r.changes := by rw [hrt]
    have hws : (runTick r.before d).world = r.after := by rw [hrt]
    have hrc := runTick_changes hnd c (by rw [hcs]; exact hc)
    rw [hws] at hrc
    exact hrc
  refine ⟨fun dd hdd => hm.2.2 dd hdd, hm.2.1, hchg, ?_⟩
  intro r hr q hq c hc hcq
  obtain ⟨h1, h2⟩ := hchg r hr c hc
  rw [hcq] at h1 h2
  rw [hq] at h2
  exact h1 h2

def c6req : SimRequest :=
  ⟨1, ⟨[⟨⟨0, 0, 0⟩, .lever true .east⟩, ⟨⟨1, 0, 0⟩, .dust 0⟩]⟩, true⟩

def c6rec : TickRecord :=
  ⟨1, [(⟨0, 0, 0⟩, .lever true .east), (⟨1, 0, 0⟩, .dust 0)],
    [(⟨0, 0, 0⟩, .lever true .east), (⟨1, 0, 0⟩, .dust 15)],
    [⟨⟨1, 0, 0⟩, .dust 15⟩]⟩

/-- C6 witness: in a lever-and-dust world the tick-1 record lists the dust at
its new power 15, different from its power 0 at t=0. -/
theorem C6_diff_minimality_witness :
    c6rec ∈ (simulateFull c6req).trace ∧
    lookupW c6rec.before ⟨1, 0, 0⟩ ≠ some (.dust 15) ∧
    lookupW c6rec.after ⟨1, 0, 0⟩ = some (.dust 15) :=
  ⟨by decide,
    ((C6_diff_minimality c6req).2.2.1 c6rec (by decide) ⟨⟨1, 0, 0⟩, .dust 15⟩ (by decide)).1,
    ((C6_diff_minimality c6req).2.2.1 c6rec (by decide) ⟨⟨1, 0, 0⟩, .dust 15⟩ (by decide)).2⟩

-- -------------------------------------------------
-- C9: frame effect of a tick
-- -------------------------------------------------

/-- C9: across every executed tick the set of occupied positions is unchanged,
every block keeps its variant tag, its facing, and its configured delay; only
the remaining per-variant fields can be mutated. -/
theorem C9_frame_effect (req : SimRequest) :
    ∀ r ∈ (simulateFull req).trace,
      (∀ q, lookupW r.after q = none ↔ lookupW r.before q = none) ∧
      (∀ q, (lookupW r.after q).map tagOf = (lookupW r.before q).map tagOf ∧
        (lookupW r.after q).map facingOf = (lookupW r.before q).map facingOf ∧
        (lookupW r.after q).map delayOf = (lookupW r.before q).map delayOf) := by
  have hm := simLoop_trace_ok req.ticks 1 req.early_exit (intoMap req.world.blocks)
    ((intoMap req.world.blocks).map (fun e => e.1)) [] [] (intoMap req.world.blocks)
    (intoMap_wf req.world.blocks) (wfW_keys_nodup (intoMap_wf req.world.blocks))
    (fun r hr => absurd hr (List.not_mem_nil r)) rfl
    (fun dd hdd => absurd hdd (List.not_mem_nil dd))
  rw [← simulateFull_eq] at hm
  intro r hr
  obtain ⟨hwb, d, nd, hnd, hrt⟩ := hm.1 r hr
  have hws : (runTick r.before d).world = r.after := by rw [hrt]
  have hfr := runTick_frame (w := r.before) d
  rw [hws] at hfr
  refine ⟨?_, hfr⟩
  intro q
  have h1 := (hfr q).1
  cases ha : lookupW r.after q <;> cases hb : lookupW r.before q <;>
    simp [ha, hb] at h1 ⊢

def c9req : SimRequest :=
  ⟨1, ⟨[⟨⟨0, 0, 0⟩, .lever true .east⟩, ⟨⟨1, 0, 0⟩, .torch true .west⟩]⟩, true⟩

def c9rec : TickRecord :=
  ⟨1, [(⟨0, 0, 0⟩, .lever true .east), (⟨1, 0, 0⟩, .torch true .west)],
    [(⟨0, 0, 0⟩, .lever true .east), (⟨1, 0, 0⟩, .torch false .west)],
    [⟨⟨1, 0, 0⟩, .torch false .west⟩]⟩

/-- C9 witness: the torch-inverter world keeps its occupancy, tags and facings
across tick 1 while the torch's lit field flips. -/
theorem C9_frame_effect_witness :
    c9rec ∈ (simulateFull c9req).trace ∧
    (lookupW c9rec.after ⟨1, 0, 0⟩).map tagOf =
      (lookupW c9rec.before ⟨1, 0, 0⟩).map tagOf :=
  ⟨by decide, ((C9_frame_effect c9req c9rec (by decide)).2 ⟨1, 0, 0⟩).1⟩

-- -------------------------------------------------
-- C2: power bounds
-- -------------------------------------------------

-- a request whose initial world carries an out-of-range power: the decoded
-- u8 field admits values up to 255 and nothing validates it
def c2cex : SimRequest := ⟨1, ⟨[⟨⟨0, 0, 0⟩, .dust 200⟩, ⟨⟨1, 0, 0⟩, .dust 0⟩]⟩, true⟩

/-- C2 counterexample: with an initial dust power of 200 the first tick emits a
dust state with power 199, outside [0,15], so the claim fails as stated for
arbitrary SimRequests. -/
theorem C2_power_unbounded_cex :
    (simulate c2cex).diffs =
      [⟨1, [⟨⟨0, 0, 0⟩, .dust 0⟩, ⟨⟨1, 0, 0⟩, .dust 199⟩]⟩] ∧ ¬(199 : Nat) ≤ 15 :=
  ⟨by decide, by decide⟩

/-- C2 amended: for every SimRequest whose initial world maps every position to
a block whose power-valued fields (Dust.power, Comparator.output) lie within
[0,15], every power-valued field of every block state emitted in any TickDiff
also lies within [0,15]. -/
theorem C2_power_bounds_amended (req : SimRequest)
    (h : powersOkW (intoMap req.world.blocks) = true) :
    ∀ dd ∈ (simulate req).diffs, ∀ c ∈ dd.changes, powerOkB c.kind = true := by
  have hw : ∀ e ∈ intoMap req.world.blocks, powerOkB e.2 = true :=
    fun e he => List.all_eq_true.mp h e he
  have hp := simLoop_powers req.ticks 1 req.early_exit (intoMap req.world.blocks)
    ((intoMap req.world.blocks).map (fun e => e.1)) [] [] hw
    (fun dd hdd => absurd hdd (List.not_mem_nil dd))
  intro dd hdd
  exact hp dd (by rw [← simulateFull_eq] at hp ⊢; exact hdd)

/-- C2 witness: a lever driving a dust wire satisfies the bound hypothesis and
every emitted power field stays within [0,15]. -/
theorem C2_power_bounds_amended_witness :
    powersOkW (intoMap [⟨⟨0, 0, 0⟩, .lever true .east⟩, ⟨⟨1, 0, 0⟩, .dust 0⟩]) = true ∧
    (∀ dd ∈ (simulate ⟨2, ⟨[⟨⟨0, 0, 0⟩, .lever true .east⟩, ⟨⟨1, 0, 0⟩, .dust 0⟩]⟩,
        true⟩).diffs, ∀ c ∈ dd.changes, powerOkB c.kind = true) :=
  ⟨by decide, C2_power_bounds_amended ⟨2, ⟨[⟨⟨0, 0, 0⟩, .lever true .east⟩,
    ⟨⟨1, 0, 0⟩, .dust 0⟩]⟩, true⟩ (by decide)⟩

-- -------------------------------------------------
-- C3: the dust rule and the attenuation law on a straight wire line
-- -------------------------------------------------

-- Written from the spec's words for comparison with the code: the dust's new
-- power is the max over the six neighbors of (neighbor.power - 1, floored at
-- 0) for a dust neighbor and of the power offered toward this cell otherwise.
def dustSpecPower (snapshot : WorldMap) (pos : Pos) : Nat :=
  Direction.all.foldl (fun acc d =>
    match lookupW snapshot (shift pos d) with
    | some nb =>
      max acc (match nb with
        | .dust p2 => p2 - 1
        | _ => outputTowards nb d.opposite)
    | none => acc) 0

-- the straight line: a full-strength lever at x=0 facing east, N dust cells
-- at x=1..N
def linePos (i : Nat) : Pos := ⟨(i : Int), 0, 0⟩

def lineDustBlocks : Nat → Nat → List PlacedBlock
  | _, 0 => []
  | s, len + 1 => ⟨linePos s, .dust 0⟩ :: lineDustBlocks (s + 1) len

def lineBlocks (N : Nat) : List PlacedBlock :=
  ⟨linePos 0, .lever true .east⟩ :: lineDustBlocks 1 N

def lineReq (N : Nat) : SimRequest := ⟨N + 2, ⟨lineBlocks N⟩, true⟩

-- the wire's power profile at the start of tick t: cell k has settled at
-- 16 - k once the front has passed it (k < t), otherwise still 0
def linePow (t k : Nat) : Nat := if k < t then 16 - k else 0

def lineDusts : Nat → Nat → (Nat → Nat) → WorldMap
  | _, 0, _ => []
  | s, len + 1, f => (linePos s, .dust (f s)) :: lineDusts (s + 1) len f

def lineWorld (N t : Nat) : WorldMap :=
  (linePos 0, .lever true .east) :: lineDusts 1 N (linePow t)

theorem dustNewPower_eq_spec (snapshot : WorldMap) (pw : Nat) (pos : Pos) :
    dustNewPower snapshot (.dust pw) pos = dustSpecPower snapshot pos := by
  unfold dustNewPower dustSpecPower inputPositions
  rw [List.foldl_map]
  congr 1
  funext acc d
  rw [dirFromTo_shift]

theorem linePos_inj {a b : Nat} (h : linePos a = linePos b) : a = b := by
  simp [linePos, posEq_iff] at h
  omega

theorem posLtB_linePos (a b : Nat) : posLtB (linePos a) (linePos b) = true ↔ a < b := by
  rw [posLtB_iff]
  simp [linePos]

theorem lookupW_lineDusts_hit (len : Nat) : ∀ (s k : Nat) (f : Nat → Nat),
    s ≤ k → k < s + len →
    lookupW (lineDusts s len f) (linePos k) = some (.dust (f k)) := by
  induction len with
  | zero => intro s k f h1 h2; omega
  | succ len ih =>
    intro s k f h1 h2
    rw [lineDusts, lookupW_cons]
    by_cases he : s = k
    · subst he
      rw [if_pos rfl]
    · rw [if_neg (fun hc => he (linePos_inj hc))]
      exact ih (s + 1) k f (by omega) (by omega)

theorem lookupW_lineDusts_miss (len : Nat) : ∀ (s : Nat) (f : Nat → Nat) (q : Pos),
    (∀ k, s ≤ k → k < s + len → q ≠ linePos k) →
    lookupW (lineDusts s len f) q = none := by
  induction len with
  | zero => intro s f q _; rfl
  | succ len ih =>
    intro s f q h
    rw [lineDusts, lookupW_cons]
    rw [if_neg (fun hc => h s (by omega) (by omega) hc.symm)]
    exact ih (s + 1) f q (fun k hk1 hk2 => h k (by omega) (by omega))

theorem lookupW_lineWorld_lever (N t : Nat) :
    lookupW (lineWorld N t) (linePos 0) = some (.lever true .east) := by
  rw [lineWorld, lookupW_cons, if_pos rfl]

theorem lookupW_lineWorld_dust (N t k : Nat) (h1 : 1 ≤ k) (h2 : k ≤ N) :
    lookupW (lineWorld N t) (linePos k) = some (.dust (linePow t k)) := by
  rw [lineWorld, lookupW_cons]
  rw [if_neg (fun hc => by have := linePos_inj hc; omega)]
  exact lookupW_lineDusts_hit N 1 k (linePow t) (by omega) (by omega)

theorem lookupW_lineWorld_miss (N t : Nat) (q : Pos)
    (h : ∀ k, k ≤ N → q ≠ linePos k) :
    lookupW (lineWorld N t) q = none := by
  rw [lineWorld, lookupW_cons]
  rw [if_neg (fun hc => h 0 (by omega) hc.symm)]
  exact lookupW_lineDusts_miss N 1 (linePow t) q (fun k hk1 hk2 => h k (by omega))

theorem mem_lineDusts (len : Nat) : ∀ (s : Nat) (f : Nat → Nat) (e : Pos × BlockKind),
    e ∈ lineDusts s len f → ∃ k, s ≤ k ∧ k < s + len ∧ e = (linePos k, .dust (f k)) := by
  induction len with
  | zero => intro s f e he; cases he
  | succ len ih =>
    intro s f e he
    rw [lineDusts] at he
    rcases List.mem_cons.mp he with h | h
    · exact ⟨s, by omega, by omega, h⟩
    · obtain ⟨k, hk1, hk2, hk3⟩ := ih (s + 1) f e h
      exact ⟨k, by omega, by omega, hk3⟩

theorem lineWorld_lookup_cases (N t : Nat) (q : Pos) :
    lookupW (lineWorld N t) q = none ∨
    (q = linePos 0 ∧ lookupW (lineWorld N t) q = some (.lever true .east)) ∨
    (∃ k, 1 ≤ k ∧ k ≤ N ∧ q = linePos k ∧
      lookupW (lineWorld N t) q = some (.dust (linePow t k))) := by
  cases hl : lookupW (lineWorld N t) q with
  | none => exact Or.inl rfl
  | some b =>
    have hmem := lookupW_mem hl
    rw [lineWorld] at hmem
    rcases List.mem_cons.mp hmem with h | h
    · have hq : q = linePos 0 := congrArg Prod.fst h
      have hb : b = .lever true .east := congrArg Prod.snd h
      exact Or.inr (Or.inl ⟨hq, by rw [hb]⟩)
    · obtain ⟨k, hk1, hk2, hk3⟩ := mem_lineDusts N 1 (linePow t) (q, b) h
      have hq : q = linePos k := congrArg Prod.fst hk3
      have hb : b = .dust (linePow t k) := congrArg Prod.snd hk3
      exact Or.inr (Or.inr ⟨k, by omega, by omega, hq, by rw [hb]⟩)

theorem lineDusts_congr (len : Nat) : ∀ (s : Nat) (f g : Nat → Nat),
    (∀ k, s ≤ k → k < s + len → f k = g k) →
    lineDusts s len f = lineDusts s len g := by
  induction len with
  | zero => intro s f g _; rfl
  | succ len ih =>
    intro s f g h
    rw [lineDusts, lineDusts, h s (by omega) (by omega)]
    rw [ih (s + 1) f g (fun k hk1 hk2 => h k (by omega) (by omega))]

theorem insertW_lineDusts (len : Nat) : ∀ (s t : Nat) (f : Nat → Nat) (v : Nat),
    s ≤ t → t < s + len →
    insertW (lineDusts s len f) (linePos t) (.dust v) =
      lineDusts s len (fun k => if k = t then v else f k) := by
  induction len with
  | zero => intro s t f v h1 h2; omega
  | succ len ih =>
    intro s t f v h1 h2
    rw [lineDusts, insertW]
    by_cases he : t = s
    · subst he
      rw [if_pos rfl, lineDusts]
      rw [if_pos rfl]
      rw [lineDusts_congr len (t + 1) f (fun k => if k = t then v else f k)
        (fun k hk1 _ => by
          have hne : ¬k = t := by omega
          simp [hne])]
    · rw [if_neg (fun hc => he (linePos_inj hc))]
      rw [if_neg (by rw [posLtB_linePos]; omega)]
      rw [lineDusts]
      rw [if_neg (Ne.symm he)]
      rw [ih (s + 1) t f v (by omega) (by omega)]

theorem lineDusts_wf_aux (len : Nat) : ∀ (s : Nat) (f : Nat → Nat),
    wfW (lineDusts s len f) ∧
    (∀ e ∈ lineDusts s len f, posLtB (linePos s) e.1 = true ∨ e.1 = linePos s) := by
  induction len with
  | zero => intro s f; exact ⟨wfW_nil, fun e he => absurd he (List.not_mem_nil e)⟩
  | succ len ih =>
    intro s f
    obtain ⟨hwf, hmem⟩ := ih (s + 1) f
    constructor
    · rw [lineDusts, wfW, List.pairwise_cons]
      refine ⟨?_, hwf⟩
      intro e he
      rcases hmem e he with h | h
      · exact posLtB_trans ((posLtB_linePos s (s + 1)).mpr (by omega)) h
      · rw [h]
        exact (posLtB_linePos s (s + 1)).mpr (by omega)
    · intro e he
      rw [lineDusts] at he
      rcases List.mem_cons.mp he with h | h
      · right; rw [h]
      · rcases hmem e h with h2 | h2
        · left; exact posLtB_trans ((posLtB_linePos s (s + 1)).mpr (by omega)) h2
        · left; rw [h2]; exact (posLtB_linePos s (s + 1)).mpr (by omega)

theorem lineWorld_wf (N t : Nat) : wfW (lineWorld N t) := by
  rw [lineWorld, wfW, List.pairwise_cons]
  obtain ⟨hwf, hmem⟩ := lineDusts_wf_aux N 1 (linePow t)
  refine ⟨?_, hwf⟩
  intro e he
  rcases hmem e he with h | h
  · exact posLtB_trans ((posLtB_linePos 0 1).mpr (by omega)) h
  · rw [h]
    exact (posLtB_linePos 0 1).mpr (by omega)

theorem insertW_self {m : WorldMap} (hw : wfW m) {p : Pos} {b : BlockKind}
    (h : lookupW m p = some b) : insertW m p b = m := by
  apply wfW_ext (insertW_wf hw p b) hw
  intro q
  rw [lookupW_insertW]
  by_cases hq : q = p
  · rw [if_pos hq, hq, h]
  · rw [if_neg hq]

theorem shift_linePos_east (k : Nat) : shift (linePos k) .east = linePos (k + 1) := by
  simp [shift, linePos, Direction.offset, posEq_iff]

theorem shift_linePos_west (k : Nat) (h : 1 ≤ k) :
    shift (linePos k) .west = linePos (k - 1) := by
  simp [shift, linePos, Direction.offset, posEq_iff]
  omega

theorem lookupW_lineWorld_off (N t k : Nat) (d : Direction)
    (hd : d ≠ Direction.east) (hd2 : d ≠ Direction.west) :
    lookupW (lineWorld N t) (shift (linePos k) d) = none := by
  apply lookupW_lineWorld_miss
  intro j _ hc
  cases d <;> simp [shift, linePos, Direction.offset, posEq_iff] at hc hd hd2

theorem lookupW_lineWorld_east (N t k : Nat) :
    lookupW (lineWorld N t) (shift (linePos k) .east) =
      if k + 1 ≤ N then some (.dust (linePow t (k + 1))) else none := by
  rw [shift_linePos_east]
  by_cases h : k + 1 ≤ N
  · rw [if_pos h]
    exact lookupW_lineWorld_dust N t (k + 1) (by omega) h
  · rw [if_neg h]
    exact lookupW_lineWorld_miss N t _ (fun j hj hc => by
      have := linePos_inj hc
      omega)

theorem linePow_le (t k : Nat) : linePow t k ≤ 16 - k := by
  unfold linePow
  split_ifs <;> omega

theorem linePow_succ_self (t : Nat) : linePow (t + 1) t = 16 - t := by
  simp [linePow]

theorem linePow_succ_ne {t k : Nat} (h : k ≠ t) : linePow (t + 1) k = linePow t k := by
  unfold linePow
  split_ifs <;> omega

theorem dustNewPower_line (N t k pw : Nat) (h1 : 1 ≤ k) (hk : k ≤ N) (ht : 1 ≤ t) :
    dustNewPower (lineWorld N t) (.dust pw) (linePos k) = linePow (t + 1) k := by
  rw [dustNewPower_eq_spec]
  unfold dustSpecPower
  rw [Direction.all]
  simp only [List.foldl_cons, List.foldl_nil]
  rw [lookupW_lineWorld_off N t k .up (by simp) (by simp),
      lookupW_lineWorld_off N t k .down (by simp) (by simp),
      lookupW_lineWorld_off N t k .south (by simp) (by simp),
      lookupW_lineWorld_off N t k .north (by simp) (by simp),
      lookupW_lineWorld_east N t k]
  by_cases hk1 : k = 1
  · subst hk1
    rw [shift_linePos_west 1 (by omega), lookupW_lineWorld_lever]
    by_cases hE : 1 + 1 ≤ N
    · rw [if_pos hE]
      simp [outputTowards, Direction.opposite, Nat.max_def]
      unfold linePow
      split_ifs <;> omega
    · rw [if_neg hE]
      simp [outputTowards, Direction.opposite, Nat.max_def]
      unfold linePow
      split_ifs <;> omega
  · rw [shift_linePos_west k h1, lookupW_lineWorld_dust N t (k - 1) (by omega) (by omega)]
    by_cases hE : k + 1 ≤ N
    · rw [if_pos hE]
      simp only [Nat.max_def]
      unfold linePow
      split_ifs <;> omega
    · rw [if_neg hE]
      simp only [Nat.max_def]
      unfold linePow
      split_ifs <;> omega

theorem updateBlock_line_dust_fix (N t k pw : Nat) (h1 : 1 ≤ k) (hk : k ≤ N)
    (ht : 1 ≤ t) (heq : pw = linePow (t + 1) k) :
    updateBlock (lineWorld N t) (linePos k) (.dust pw) = (.dust pw, false, false, false) := by
  have hd := dustNewPower_line N t k pw h1 hk ht
  simp only [updateBlock]
  rw [if_pos (heq.trans hd.symm)]

theorem updateBlock_line_dust_change (N t : Nat) (h1 : 1 ≤ t) (htN : t ≤ N)
    (ht15 : t ≤ 15) :
    updateBlock (lineWorld N t) (linePos t) (.dust 0) =
      (.dust (16 - t), true, true, false) := by
  have hd := dustNewPower_line N t t 0 h1 htN h1
  rw [linePow_succ_self] at hd
  simp only [updateBlock]
  rw [if_neg (by rw [hd]; omega), hd]

theorem processPos_id_of_nochange (snapshot : WorldMap) (st : TickState) (q : Pos)
    (hwf : wfW st.world)
    (hno : ∀ b, lookupW st.world q = some b →
      updateBlock snapshot q b = (b, false, false, false)) :
    processPos snapshot st q = st := by
  cases hl : lookupW st.world q with
  | none => simp [processPos, hl]
  | some b =>
    have hup := hno b hl
    simp [processPos, hl, hup, insertW_self hwf hl]

theorem processPos_line_id (N t u : Nat) (ht : 1 ≤ t) (cs : List BlockChange)
    (nd : List Pos) (q : Pos)
    (hfix : ∀ k, 1 ≤ k → k ≤ N → q = linePos k → linePow u k = linePow (t + 1) k) :
    processPos (lineWorld N t) ⟨lineWorld N u, cs, nd⟩ q = ⟨lineWorld N u, cs, nd⟩ := by
  apply processPos_id_of_nochange _ _ _ (lineWorld_wf N u)
  intro b hl
  rcases lineWorld_lookup_cases N u q with h | ⟨hq, hl2⟩ | ⟨k, hk1, hk2, hq, hl2⟩
  · rw [h] at hl
    cases hl
  · rw [hl2] at hl
    obtain rfl := Option.some.inj hl
    rfl
  · rw [hl2] at hl
    obtain rfl := Option.some.inj hl
    rw [hq]
    exact updateBlock_line_dust_fix N t k _ hk1 hk2 ht (hfix k hk1 hk2 hq)

theorem insertW_lineWorld_step (N t : Nat) (h1 : 1 ≤ t) (htN : t ≤ N) :
    insertW (lineWorld N t) (linePos t) (.dust (16 - t)) = lineWorld N (t + 1) := by
  rw [lineWorld, insertW]
  rw [if_neg (fun hc => by have := linePos_inj hc; omega)]
  rw [if_neg (by
    intro hc
    rw [posLtB_linePos] at hc
    omega)]
  rw [insertW_lineDusts N 1 t (linePow t) (16 - t) (by omega) (by omega)]
  rw [lineWorld]
  rw [lineDusts_congr N 1 (fun k => if k = t then 16 - t else linePow t k) (linePow (t + 1))
    (fun k hk1 hk2 => by
      show (if k = t then 16 - t else linePow t k) = linePow (t + 1) k
      by_cases he : k = t
      · subst he
        rw [if_pos rfl, linePow_succ_self]
      · rw [if_neg he, linePow_succ_ne he])]

theorem processPos_line_change (N t : Nat) (h1 : 1 ≤ t) (htN : t ≤ N) (ht15 : t ≤ 15) :
    processPos (lineWorld N t) ⟨lineWorld N t, [], []⟩ (linePos t) =
      ⟨lineWorld N (t + 1), [⟨linePos t, .dust (16 - t)⟩],
        (outputPositions (.dust (16 - t)) (linePos t)).foldl insertPos []⟩ := by
  have hl : lookupW (lineWorld N t) (linePos t) = some (.dust 0) := by
    have hh := lookupW_lineWorld_dust N t t h1 htN
    rwa [show linePow t t = 0 from by simp [linePow]] at hh
  have hup := updateBlock_line_dust_change N t h1 htN ht15
  simp only [processPos, hl, hup]
  rw [insertW_lineWorld_step N t h1 htN]
  simp

theorem fold_line_quiet (N t : Nat) (ht : 1 ≤ t) (hB : t ≤ N → 16 ≤ t) :
    ∀ dirty : List Pos,
    dirty.foldl (processPos (lineWorld N t)) ⟨lineWorld N t, [], []⟩ =
      ⟨lineWorld N t, [], []⟩ := by
  intro dirty
  induction dirty with
  | nil => rfl
  | cons q rest ih =>
    rw [List.foldl_cons]
    rw [show processPos (lineWorld N t) ⟨lineWorld N t, [], []⟩ q =
        ⟨lineWorld N t, [], []⟩ from ?_]
    · exact ih
    · apply processPos_line_id N t t ht [] [] q
      intro k hk1 hk2 hq
      by_cases he : k = t
      · subst he
        have h16 := hB hk2
        unfold linePow
        split_ifs <;> omega
      · exact (linePow_succ_ne he).symm

theorem fold_line_done (N t : Nat) (ht : 1 ≤ t) (cs : List BlockChange)
    (nd : List Pos) :
    ∀ dirty : List Pos,
    dirty.foldl (processPos (lineWorld N t)) ⟨lineWorld N (t + 1), cs, nd⟩ =
      ⟨lineWorld N (t + 1), cs, nd⟩ := by
  intro dirty
  induction dirty with
  | nil => rfl
  | cons q rest ih =>
    rw [List.foldl_cons, processPos_line_id N t (t + 1) ht cs nd q (fun k _ _ _ => rfl)]
    exact ih

theorem fold_line_active (N t : Nat) (h1 : 1 ≤ t) (htN : t ≤ N) (ht15 : t ≤ 15) :
    ∀ dirty : List Pos, linePos t ∈ dirty →
    dirty.foldl (processPos (lineWorld N t)) ⟨lineWorld N t, [], []⟩ =
      ⟨lineWorld N (t + 1), [⟨linePos t, .dust (16 - t)⟩],
        (outputPositions (.dust (16 - t)) (linePos t)).foldl insertPos []⟩ := by
  intro dirty
  induction dirty with
  | nil => intro h; cases h
  | cons q rest ih =>
    intro hmem
    rw [List.foldl_cons]
    by_cases hq : q = linePos t
    · rw [hq, processPos_line_change N t h1 htN ht15]
      exact fold_line_done N t h1 _ _ rest
    · rw [processPos_line_id N t t h1 [] [] q (fun k hk1 hk2 hqk => by
        have hkt : k ≠ t := fun he => hq (by rw [hqk, he])
        exact (linePow_succ_ne hkt).symm)]
      apply ih
      rcases List.mem_cons.mp hmem with h | h
      · exact absurd h.symm hq
      · exact h

theorem mem_foldl_insertPos_list {l : List Pos} {x : Pos} (h : x ∈ l) :
    ∀ s : List Pos, x ∈ l.foldl insertPos s := by
  induction l with
  | nil => cases h
  | cons a rest ih =>
    intro s
    rcases List.mem_cons.mp h with h2 | h2
    · subst h2
      rw [List.foldl_cons]
      exact mem_foldl_insertPos (mem_insertPos.mpr (Or.inl rfl))
    · rw [List.foldl_cons]
      exact ih h2 _

theorem timersActive_lineDusts (len : Nat) : ∀ (s : Nat) (f : Nat → Nat),
    timersActive (lineDusts s len f) = false := by
  induction len with
  | zero => intro s f; rfl
  | succ len ih =>
    intro s f
    rw [lineDusts]
    unfold timersActive at ih ⊢
    rw [List.any_cons]
    rw [ih (s + 1) f]
    rfl

theorem timersActive_lineWorld (N t : Nat) : timersActive (lineWorld N t) = false := by
  rw [lineWorld]
  have hd := timersActive_lineDusts N 1 (linePow t)
  unfold timersActive at hd ⊢
  rw [List.any_cons, hd]
  rfl

theorem simLoop_line (N : Nat) : ∀ (fuel t : Nat) (dirty : List Pos)
    (diffs : List TickDiff) (trace : List TickRecord),
    1 ≤ t → t ≤ min N 15 + 1 → min N 15 + 2 - t ≤ fuel →
    (t ≤ min N 15 → linePos t ∈ dirty) →
    (simLoop fuel t true (lineWorld N t) dirty diffs trace).terminated = .stable ∧
    (simLoop fuel t true (lineWorld N t) dirty diffs trace).world =
      lineWorld N (min N 15 + 1) := by
  intro fuel
  induction fuel with
  | zero =>
    intro t dirty diffs trace ht1 ht2 hfuel hmem
    omega
  | succ fuel' ih =>
    intro t dirty diffs trace ht1 ht2 hfuel hmem
    by_cases hA : t ≤ min N 15
    · have htN : t ≤ N := by omega
      have ht15 : t ≤ 15 := by omega
      have hrt : runTick (lineWorld N t) dirty =
          ⟨lineWorld N (t + 1), [⟨linePos t, .dust (16 - t)⟩],
            (outputPositions (.dust (16 - t)) (linePos t)).foldl insertPos []⟩ := by
        unfold runTick
        exact fold_line_active N t ht1 htN ht15 dirty (hmem hA)
      simp only [simLoop, hrt]
      split
      · next hcond => simp at hcond
      · next hcond =>
          apply ih (t + 1) _ _ _ (by omega) (by omega) (by omega)
          intro hle
          apply mem_foldl_insertPos_list
          show linePos (t + 1) ∈ outputPositions (.dust (16 - t)) (linePos t)
          simp only [outputPositions]
          rw [show linePos (t + 1) = shift (linePos t) .east from (shift_linePos_east t).symm]
          exact List.mem_map_of_mem (shift (linePos t)) (mem_direction_all .east)
    · have htB : t = min N 15 + 1 := by omega
      have hrt : runTick (lineWorld N t) dirty = ⟨lineWorld N t, [], []⟩ := by
        unfold runTick
        exact fold_line_quiet N t ht1 (by omega) dirty
      simp only [simLoop, hrt]
      split
      · next hcond =>
          split
          · next hcond2 =>
              constructor
              · rfl
              · show lineWorld N t = lineWorld N (min N 15 + 1)
                rw [htB]
          · next hcond2 =>
              exfalso
              apply hcond2
              simp [timersActive_lineWorld]
      · next hcond => simp at hcond

theorem insertW_append_big : ∀ (m : WorldMap) (p : Pos) (k : BlockKind),
    (∀ e ∈ m, posLtB e.1 p = true) → insertW m p k = m ++ [(p, k)] := by
  intro m
  induction m with
  | nil => intro p k _; rfl
  | cons a rest ih =>
    intro p k h
    obtain ⟨b, v⟩ := a
    have hb := h (b, v) (List.mem_cons_self _ _)
    rw [insertW]
    rw [if_neg (fun hc => by rw [hc, posLtB_irrefl] at hb; cases hb)]
    rw [if_neg (by simp [posLtB_asymm hb])]
    rw [ih p k (fun e he => h e (List.mem_cons_of_mem _ he))]
    rfl

theorem foldl_lineDustBlocks (len : Nat) : ∀ (s : Nat) (m : WorldMap),
    (∀ e ∈ m, posLtB e.1 (linePos s) = true) →
    (lineDustBlocks s len).foldl (fun m b => insertW m b.pos b.kind) m =
      m ++ lineDusts s len (fun _ => 0) := by
  induction len with
  | zero => intro s m _; rw [lineDustBlocks, lineDusts]; simp
  | succ len ih =>
    intro s m h
    rw [lineDustBlocks, List.foldl_cons]
    rw [show ((⟨linePos s, .dust 0⟩ : PlacedBlock).pos) = linePos s from rfl]
    rw [show ((⟨linePos s, .dust 0⟩ : PlacedBlock).kind) = .dust 0 from rfl]
    rw [insertW_append_big m (linePos s) (.dust 0) h]
    have harg : ∀ e ∈ m ++ [(linePos s, BlockKind.dust 0)],
        posLtB e.1 (linePos (s + 1)) = true := by
      intro e he
      rcases List.mem_append.mp he with h2 | h2
      · exact posLtB_trans (h e h2) ((posLtB_linePos s (s + 1)).mpr (by omega))
      · rw [List.mem_singleton.mp h2]
        exact (posLtB_linePos s (s + 1)).mpr (by omega)
    rw [ih (s + 1) (m ++ [(linePos s, BlockKind.dust 0)]) harg]
    rw [List.append_assoc]
    rfl

theorem intoMap_lineBlocks (N : Nat) : intoMap (lineBlocks N) = lineWorld N 1 := by
  unfold intoMap lineBlocks
  rw [List.foldl_cons]
  rw [show insertW [] (linePos 0) (.lever true .east) =
      [(linePos 0, .lever true .east)] from rfl]
  rw [foldl_lineDustBlocks N 1 [(linePos 0, .lever true .east)] (fun e he => by
    rw [List.mem_singleton.mp he]
    exact (posLtB_linePos 0 1).mpr (by omega))]
  rw [lineWorld]
  rw [lineDusts_congr N 1 (fun _ => 0) (linePow 1) (fun k hk1 _ => by
    show (0 : Nat) = linePow 1 k
    unfold linePow
    rw [if_neg (by omega)])]
  rfl

theorem lineDusts_mem (len : Nat) : ∀ (s k : Nat) (f : Nat → Nat), s ≤ k → k < s + len →
    (linePos k, BlockKind.dust (f k)) ∈ lineDusts s len f := by
  induction len with
  | zero => intro s k f h1 h2; omega
  | succ len ih =>
    intro s k f h1 h2
    rw [lineDusts]
    by_cases he : k = s
    · subst he
      exact List.mem_cons_self _ _
    · exact List.mem_cons_of_mem _ (ih (s + 1) k f (by omega) (by omega))

theorem linePos_one_mem_keys (N : Nat) (hN : 1 ≤ N) :
    linePos 1 ∈ (lineWorld N 1).map (fun e => e.1) := by
  rw [lineWorld, List.map_cons]
  apply List.mem_cons_of_mem
  exact List.mem_map.mpr ⟨(linePos 1, .dust (linePow 1 1)),
    lineDusts_mem N 1 1 (linePow 1) (by omega) (by omega), rfl⟩

theorem simulateFull_line (N : Nat) :
    (simulateFull (lineReq N)).terminated = .stable ∧
    (simulateFull (lineReq N)).world = lineWorld N (min N 15 + 1) := by
  rw [simulateFull_eq]
  rw [show (lineReq N).ticks = N + 2 from rfl]
  rw [show (lineReq N).early_exit = true from rfl]
  rw [show (lineReq N).world.blocks = lineBlocks N from rfl]
  rw [intoMap_lineBlocks]
  apply simLoop_line N (N + 2) 1 _ [] [] (by omega) (by omega) (by omega)
  intro hle
  exact linePos_one_mem_keys N (by omega)

/-- C3 counterexample: on a one-segment line driven by a full-strength lever,
the simulation stabilizes with segment 1 at power 15, not max(0, 15-1) = 14 as
the claim's attenuation law states. -/
theorem C3_attenuation_cex :
    (simulateFull (lineReq 1)).terminated = .stable ∧
    lookupW (simulateFull (lineReq 1)).world (linePos 1) = some (.dust 15) ∧
    (15 : Nat) ≠ 15 - 1 :=
  ⟨by decide, by decide, by decide⟩

/-- C3 amended: the per-tick Dust update computes new power exactly as the max
over the six neighbors of (neighbor.power - 1 floored at 0) for a Dust
neighbor and the power offered toward the cell otherwise, and changes the
block iff that value differs from the old power; consequently a straight line
of N wire segments driven by a full-strength (15) source stabilizes with
segment k (1-indexed from the source) at power max(0, 16-k), reaching 0 at
k ≥ 16 (the source injects full strength into segment 1). -/
theorem C3_dust_rule_and_attenuation_amended :
    (∀ (snapshot : WorldMap) (pw : Nat) (pos : Pos),
      (updateBlock snapshot pos (.dust pw)).1 = .dust (dustSpecPower snapshot pos) ∧
      ((updateBlock snapshot pos (.dust pw)).2.1 = true ↔
        pw ≠ dustSpecPower snapshot pos)) ∧
    (∀ N : Nat, (simulateFull (lineReq N)).terminated = .stable) ∧
    (∀ N k : Nat, 1 ≤ k → k ≤ N →
      lookupW (simulateFull (lineReq N)).world (linePos k) = some (.dust (16 - k))) := by
  refine ⟨fun snapshot pw pos => ?_, fun N => (simulateFull_line N).1, fun N k h1 hk => ?_⟩
  · have hs := dustNewPower_eq_spec snapshot pw pos
    by_cases hc : pw = dustNewPower snapshot (.dust pw) pos
    · simp only [updateBlock, if_pos hc]
      refine ⟨congrArg BlockKind.dust (hc.trans hs), ?_⟩
      simp [hc.trans hs]
    · simp only [updateBlock, if_neg hc]
      refine ⟨congrArg BlockKind.dust hs, ?_⟩
      exact iff_of_true trivial (fun h => hc (h.trans hs.symm))
  · rw [(simulateFull_line N).2]
    have hpow : linePow (min N 15 + 1) k = 16 - k := by
      unfold linePow
      split_ifs <;> omega
    rw [lookupW_lineWorld_dust N _ k h1 hk, hpow]

/-- C3 witness: on a three-segment line the run stabilizes and segment 2 holds
power 14 = max(0, 16-2). -/
theorem C3_dust_rule_and_attenuation_amended_witness :
    (1 : Nat) ≤ 2 ∧ (2 : Nat) ≤ 3 ∧
    (simulateFull (lineReq 3)).terminated = .stable ∧
    lookupW (simulateFull (lineReq 3)).world (linePos 2) = some (.dust 14) :=
  ⟨by decide, by decide, C3_dust_rule_and_attenuation_amended.2.1 3,
    C3_dust_rule_and_attenuation_amended.2.2 3 2 (by decide) (by decide)⟩
